import Mathlib

/- Verification of the yard-pilot planning pipeline (boundaries.ts,
   coverage-grid.ts, voronoi-roadmap.ts, mow-path.ts and the orchestration in
   the application module).

   Embedding conventions.
   Geographic positions are pairs of rational coordinates `(lon, lat)`.
   The metric and boolean geometric primitives that the source delegates to
   the turf.js library (bearing, rotation, bounding boxes, areas, buffering,
   containment, polygon difference, nearest point on a line, line splitting,
   lengths) are parameters of the embedded functions - either fields of a
   `Geo` structure or explicit function arguments - so each theorem
   quantifies over their behaviour; concrete instances are supplied for
   witnesses and counterexamples.  Everything the repository itself computes
   (fingerprinting via toFixed(6), set/count bookkeeping, the sweep state
   machine, Dijkstra, the reduce-based pruning and deduplication loops, the
   orchestration loop) is embedded concretely.  JavaScript exceptions are
   modelled with `Except String`; `null`/missing values with `Option`;
   the unguarded `0/0` division with an explicit JS-number type. -/

namespace YardPilot

/-- A geographic position: longitude and latitude as rational numbers. -/
abbrev Pos := ℚ × ℚ

/-- A polygon ring (or a line string): the list of its positions.  Polygons in
the source carry a single exterior ring, accessed as `coordinates[0]`; this
embedding carries that ring directly. -/
abbrev Ring := List Pos

/-- JS `toFixed(6)` on one coordinate.  ECMAScript rounds to the nearest
multiple of `10 ^ (-6)`, ties picking the larger integer, and keeps a minus
sign for negative inputs even when they round to zero (so `-1e-9` prints as
a minus-signed zero, distinct from the plain zero string).  The result is
the rounded magnitude-or-value integer paired with the printed-sign flag. -/
def fixed6 (q : ℚ) : ℤ × Bool :=
  if q < 0 then (⌊(-q) * 1000000 + 1/2⌋, true) else (⌊q * 1000000 + 1/2⌋, false)

/-- A point fingerprint: `JSON.stringify` of the two `toFixed(6)` coordinate
strings, modelled as the pair of `fixed6` encodings (the string map is
injective on these). -/
abbrev Fp := (ℤ × Bool) × (ℤ × Bool)

/-- Fingerprint of a position (the map-key used throughout voronoi-roadmap.ts). -/
def fpp (p : Pos) : Fp := (fixed6 p.1, fixed6 p.2)

/-- Cell visit states from globals.ts (`Visit.unvisited/visited/unvisitable`). -/
inductive Visit where
  | unvisited
  | visited
  | unvisitable
deriving DecidableEq, Repr

/-- turf.lineString: constructing a line string throws unless it is given two
or more positions. -/
def lineStringF (coords : List Pos) : Except String (List Pos) :=
  if coords.length < 2 then .error "coordinates must be an array of two or more positions"
  else .ok coords

/-! ## pruneExcessPoints (mow-path.ts, lines 140-159)

The source reduces over the coordinates: the accumulator keeps the first
coordinate, and each later coordinate only when its distance from the last
kept coordinate strictly exceeds `pruneDistance`.  `turf.distance` is a
parameter `dist`. -/

/-- The body of the reduce once the accumulator is nonempty: `lastKept` is the
last element already kept. -/
def pruneAux (dist : Pos → Pos → ℚ) (d : ℚ) (lastKept : Pos) : List Pos → List Pos
  | [] => []
  | c :: cs =>
      if dist lastKept c > d then c :: pruneAux dist d c cs
      else pruneAux dist d lastKept cs

/-- The whole reduce of pruneExcessPoints: an empty accumulator takes the
first coordinate unconditionally. -/
def pruneCoords (dist : Pos → Pos → ℚ) (d : ℚ) : List Pos → List Pos
  | [] => []
  | c :: cs => c :: pruneAux dist d c cs

/-- pruneExcessPoints: `null` paths pass through; otherwise the pruned
coordinates are handed to `turf.lineString`, which throws when fewer than two
positions survive. -/
def pruneExcessPoints (dist : Pos → Pos → ℚ) (path : Option (List Pos)) (pruneDistance : ℚ) :
    Except String (Option (List Pos)) :=
  match path with
  | none => .ok none
  | some coords => (lineStringF (pruneCoords dist pruneDistance coords)).map some

/-! ## identifyBranchPoints (voronoi-roadmap.ts, lines 137-157)

The source walks the two-point segments, increments a per-fingerprint
occurrence counter for the start key and then for the end key, and adds a key
to the branch-point set the moment its counter exceeds 2. -/

/-- One counter update of identifyBranchPoints: bump the count of `key` and
add it to the branch set when the new count exceeds 2. -/
def branchStep (st : (Fp → ℕ) × Finset Fp) (key : Fp) : (Fp → ℕ) × Finset Fp :=
  let cnt := st.1 key + 1
  (fun k => if k = key then cnt else st.1 k, if cnt > 2 then insert key st.2 else st.2)

/-- identifyBranchPoints: each segment contributes its start fingerprint and
then its end fingerprint to the counting fold. -/
def identifyBranchPoints (segments : List (Pos × Pos)) : Finset Fp :=
  (segments.foldl (fun st seg => branchStep (branchStep st (fpp seg.1)) (fpp seg.2))
    (fun _ => 0, ∅)).2

/-- How often a fingerprint occurs as a segment endpoint, both endpoints of
every segment counted. -/
def endpointCount (segments : List (Pos × Pos)) (k : Fp) : ℕ :=
  (segments.map (fun s => (if fpp s.1 = k then 1 else 0) + (if fpp s.2 = k then 1 else 0))).sum

/-- The key-stream of the branch-point fold: start fingerprint then end
fingerprint of each segment. -/
def endpointKeys (segments : List (Pos × Pos)) : List Fp :=
  segments.flatMap (fun s => [fpp s.1, fpp s.2])

/-- Invariant of the branch-point fold: the counter map counts the keys seen
so far and the set holds exactly the keys seen more than twice. -/
def BranchInv (st : (Fp → ℕ) × Finset Fp) (seen : List Fp) : Prop :=
  (∀ k, st.1 k = seen.count k) ∧ ∀ k, k ∈ st.2 ↔ seen.count k > 2

/-! ## Geometry primitives

The turf.js primitives used by boundaries.ts and coverage-grid.ts, bundled as
parameters.  `bearing`/`rotate`/`bbox`/`area`/`buffer`/`squareGrid`/
`containsPt`/`within`/`difference` correspond to `turf.bearing`,
`turf.transformRotate` (angle, pivot), `turf.bbox` + `turf.bboxPolygon`,
`turf.area`, `turf.buffer`, `turf.squareGrid`, `turf.booleanContains`
(polygon, point), `turf.booleanWithin` (polygon in polygon) and
`turf.difference` (first polygon minus the rest, which can return null). -/

/-- A bounding box `(west, south, east, north)`. -/
abbrev BBoxT := ℚ × ℚ × ℚ × ℚ

structure Geo where
  bearing : Pos → Pos → ℚ
  centroid : Ring → Pos
  rotate : ℚ → Pos → Ring → Ring
  bbox : Ring → BBoxT
  bboxPolygon : BBoxT → Ring
  area : Ring → ℚ
  buffer : Ring → ℚ → Ring
  squareGrid : BBoxT → ℚ → List Ring
  containsPt : Ring → Pos → Bool
  within : Ring → Ring → Bool
  difference : Ring → List Ring → Option Ring

/-! ## getMinBoundingBox (boundaries.ts, lines 40-76)

Rotating calipers: for each hull edge, rotate the hull edge-parallel, take the
axis-aligned bounding box, and keep the smallest-area one.  `minArea` starts
at JS `Infinity`, modelled as `none`; `angle` is a mutable variable that ends
up holding the bearing of the last edge considered, and the `orientation > 0`
branch reuses that variable. -/

/-- `a < minArea` with `none` standing for `Infinity`. -/
def ltInf (a : ℚ) : Option ℚ → Bool
  | none => true
  | some b => a < b

/-- One iteration of the calipers loop.  State: (minArea, bestBoundingBox, angle). -/
def mbbStep (g : Geo) (hull : Ring) (c : Pos) (numPoints : ℕ)
    (st : Option ℚ × Option Ring × ℚ) (i : ℕ) : Option ℚ × Option Ring × ℚ :=
  let currentPoint := hull.getD i (0, 0)
  let nextPoint := hull.getD ((i + 1) % numPoints) (0, 0)
  let angle := g.bearing currentPoint nextPoint
  let rotatedHull := g.rotate (-angle) c hull
  let bbox := g.bboxPolygon (g.bbox rotatedHull)
  let bboxArea := g.area bbox
  if ltInf bboxArea st.1 then (some bboxArea, some (g.rotate angle c bbox), angle)
  else (st.1, st.2.1, angle)

/-- The whole calipers loop of getMinBoundingBox. -/
def mbbLoop (g : Geo) (hull : Ring) (c : Pos) (numPoints : ℕ) : Option ℚ × Option Ring × ℚ :=
  (List.range numPoints).foldl (mbbStep g hull c numPoints) (none, none, 0)

/-- getMinBoundingBox: the hull ring is `coordinates[0]`; `numPoints` drops the
closing vertex; a user orientation offset strictly greater than zero replaces
the winning rectangle using the final value of `angle`; a still-null best box
throws. -/
def getMinBoundingBox (g : Geo) (convexHull : Ring) (orientation : ℚ) : Except String Ring :=
  let hull := convexHull
  let numPoints := hull.length - 1
  let c := g.centroid convexHull
  let st := mbbLoop g hull c numPoints
  let angle := st.2.2
  let best :=
    if orientation > 0 then
      some (g.rotate (angle + orientation) c
        (g.bboxPolygon (g.bbox (g.rotate (-(angle + orientation)) c convexHull))))
    else st.2.1
  match best with
  | none => .error "Unable to calculate minimum bounding box"
  | some b => .ok b

/-- C3 counterexample and C4 witness instance: a deliberately simple geometry
oracle (identity rotation, constant bearing, one-point boxes).  The
surrounding theorems quantify over every `Geo`, so nothing depends on this
instance beyond concreteness. -/

def gTriv : Geo where
  bearing := fun _ _ => 0
  centroid := fun _ => (0, 0)
  rotate := fun _ _ r => r
  bbox := fun _ => (0, 0, 0, 0)
  bboxPolygon := fun _ => [(0, 0)]
  area := fun _ => 0
  buffer := fun r _ => r
  squareGrid := fun _ _ => []
  containsPt := fun _ _ => false
  within := fun _ _ => false
  difference := fun _ _ => none

/-! ## getCoverageGrid (coverage-grid.ts)

The boundary is eroded by a 1 cm buffer, the MBB is rotated axis-aligned (with
the 90-degrees-per-start-corner offset), a square grid of laneWidth cells is
generated over its bounding box, row/column indices are assigned by watching
the x coordinate of consecutive cell centroids, the grid is rotated back, and
each cell is labelled by testing its centroid against the eroded boundary and
the obstacles. -/

/-- A coverage grid cell with the properties the source stores on it. -/
structure Cell where
  poly : Ring
  gridRow : ℤ
  gridCol : ℤ
  visited : Visit
  centroid : Pos
deriving DecidableEq, Repr

/-- Row/column assignment for the cells after the first: a change in the
centroid x coordinate starts a new row, otherwise the column advances. -/
def assignAux (g : Geo) (rowIndex colIndex : ℤ) (prev : Pos) :
    List Ring → List (Ring × ℤ × ℤ)
  | [] => []
  | cell :: rest =>
      let c := g.centroid cell
      if c.1 ≠ prev.1 then (cell, rowIndex + 1, 0) :: assignAux g (rowIndex + 1) 0 c rest
      else (cell, rowIndex, colIndex + 1) :: assignAux g rowIndex (colIndex + 1) c rest

/-- Row/column assignment over the generated grid (first cell gets (0,0)). -/
def assignRowsCols (g : Geo) : List Ring → List (Ring × ℤ × ℤ)
  | [] => []
  | first :: rest => (first, 0, 0) :: assignAux g 0 0 (g.centroid first) rest

/-- getCoverageGrid from coverage-grid.ts. -/
def getCoverageGrid (g : Geo) (boundary : Ring) (obstacles : Option (List Ring))
    (mbb : Ring) (laneWidth : ℚ) (startPoint : ℤ) : List Cell :=
  let boundaryPolygon := g.buffer boundary (-(1/100))
  let obstaclesPolygons := obstacles.getD []
  let p1 := mbb.getD 0 (0, 0)
  let p2 := mbb.getD 1 (0, 0)
  let angle := g.bearing p1 p2
  let c := g.centroid mbb
  let rotatedMbb := g.rotate (-angle + 90 * (startPoint : ℚ)) c mbb
  let grid := g.squareGrid (g.bbox rotatedMbb) laneWidth
  let indexed := assignRowsCols g grid
  let aligned := indexed.map (fun x => (g.rotate (angle - 90 * (startPoint : ℚ)) c x.1, x.2.1, x.2.2))
  aligned.map (fun x =>
    let cen := g.centroid x.1
    let visitState :=
      if g.containsPt boundaryPolygon cen then
        if obstaclesPolygons.any (fun o => g.containsPt o cen) then Visit.unvisitable
        else Visit.unvisited
      else Visit.unvisitable
    ⟨x.1, x.2.1, x.2.2, visitState, cen⟩)

/-- C5 witness instance: the trivial geometry with a one-cell square grid. -/
def gGrid : Geo := { gTriv with squareGrid := fun _ _ => [[((0 : ℚ), (0 : ℚ))]] }

/-! ## calculateMowPath (mow-path.ts, lines 18-132)

The sweep driver.  Its two geometric dependencies are parameters: `router`
stands for the call to calculateClearPath (roadmap, boundary and obstacles
partially applied), and `clear` for `isPathClear` of a two-point segment
against the boundary-and-obstacles multipolygon built at the top of the
function.  Cell mutation (`cell.properties.visited = Visit.visited`) is
modelled by threading the grid list and updating it at the cell's index. -/

instance : Inhabited Visit := ⟨Visit.unvisited⟩

instance : Inhabited Cell := ⟨⟨[], 0, 0, Visit.unvisited, (0, 0)⟩⟩

/-- Mark the grid cell at `idx` visited (index beyond the grid leaves it
unchanged; the sweep only uses indices of existing cells). -/
def markVisited (grid : List Cell) (idx : ℕ) : List Cell :=
  grid.set idx { grid.getD idx default with visited := Visit.visited }

/-- Result of one row (or one whole pass): either the pass returned early
with its waypoints, or the row/pass ran to completion. -/
inductive RowStep where
  | early (grid : List Cell) (waypoints : List Pos)
  | done (grid : List Cell) (waypoints : List Pos)

/-- The row-traversal loop from the row's start index onwards.  `prev` is the
previous row cell (`row[i-1]`), `rest` the remaining `(grid index, cell)`
pairs of the (possibly reversed) row snapshot.  A column gap emits the
previous centroid and breaks; two or more still-unvisited cells in the
previous grid row adjacent to the current column emit the current centroid,
mark it visited and return the pass early; the last row cell emits its
centroid; every traversed cell is marked visited. -/
def rowTraverse (rowIndex : ℕ) (grid : List Cell) (wps : List Pos) (prev : Cell) :
    List (ℕ × Cell) → RowStep
  | [] => .done grid wps
  | (idx, cell) :: rest =>
      if (cell.gridCol - prev.gridCol).natAbs > 1 then
        .done grid (wps ++ [prev.centroid])
      else if 2 ≤ (grid.filter (fun f =>
          decide (f.visited = Visit.unvisited ∧ f.gridRow = (rowIndex : ℤ) - 1 ∧
            (f.gridCol - cell.gridCol).natAbs ≤ 1))).length then
        .early (markVisited grid idx) (wps ++ [cell.centroid])
      else if rest.isEmpty then
        .done (markVisited grid idx) (wps ++ [cell.centroid])
      else
        rowTraverse rowIndex (markVisited grid idx) wps cell rest

/-- The row-entry scan: the first cell of the row whose centroid is reachable
from the previous waypoint by a clear straight segment, with the row remainder
after it. -/
def findClearStart (clear : Pos → Pos → Bool) (prevEnd : Pos) :
    List (ℕ × Cell) → Option ((ℕ × Cell) × List (ℕ × Cell))
  | [] => none
  | (idx, cell) :: rest =>
      if clear prevEnd cell.centroid then some ((idx, cell), rest)
      else findClearStart clear prevEnd rest

/-- One row of the sweep: filter the still-unvisited cells of this row from
the live grid, reverse odd rows, find the entry cell (the first cell when no
waypoints exist yet), then traverse. -/
def processRow (clear : Pos → Pos → Bool) (grid : List Cell) (wps : List Pos)
    (rowIndex : ℕ) : RowStep :=
  let row := grid.enum.filter (fun x =>
    decide (x.2.gridRow = (rowIndex : ℤ) ∧ x.2.visited = Visit.unvisited))
  if row.isEmpty then .done grid wps
  else
    let row := if rowIndex % 2 = 1 then row.reverse else row
    match wps.getLast? with
    | some prevEnd =>
        match findClearStart clear prevEnd row with
        | none => .done grid wps
        | some ((idx, cell), rest) =>
            rowTraverse rowIndex (markVisited grid idx) (wps ++ [cell.centroid]) cell rest
    | none =>
        match row with
        | [] => .done grid wps
        | (idx0, c0) :: rest =>
            rowTraverse rowIndex (markVisited grid idx0) [c0.centroid] c0 rest

/-- All rows of one pass, stopping on an early return. -/
def sweepRows (clear : Pos → Pos → Bool) (grid : List Cell) (wps : List Pos) :
    List ℕ → List Cell × List Pos
  | [] => (grid, wps)
  | r :: rs =>
      match processRow clear grid wps r with
      | .early grid2 wps2 => (grid2, wps2)
      | .done grid2 wps2 => sweepRows clear grid2 wps2 rs

/-- getRowCount: the number of distinct gridRow values on the grid. -/
def getRowCount (grid : List Cell) : ℕ := (grid.map (·.gridRow)).dedup.length

/-- The sweep over rows 0..rowCount-1, appending the collected waypoints to
the base coordinates (both the early return and the fall-through do this). -/
def sweepAll (clear : Pos → Pos → Bool) (base : List Pos) (grid : List Cell) :
    List Pos × List Cell :=
  let res := sweepRows clear grid [] (List.range (getRowCount grid))
  (base ++ res.2, res.1)

/-- calculateMowPath.  A null path starts from scratch; otherwise the driver
finds the first still-unvisited cell, routes from the path's last vertex to
its centroid, returns the path unchanged when the router fails, and appends
the routed coordinates before sweeping.  Routing from a non-null path with no
coordinates reaches turf.lineString with an undefined start and throws. -/
def calculateMowPath (router : Pos → Pos → Option (List Pos)) (clear : Pos → Pos → Bool)
    (path : Option (List Pos)) (grid : List Cell) :
    Except String (List Pos × List Cell) :=
  match path with
  | none => .ok (sweepAll clear [] grid)
  | some p =>
      let unvisitedCells := grid.filter (fun f => decide (f.visited = Visit.unvisited))
      if unvisitedCells.isEmpty then .ok (p, grid)
      else
        match p.getLast? with
        | none => .error "undefined is not a valid coordinate"
        | some lastEndPoint =>
            let newStartPoint := (unvisitedCells.headD default).centroid
            match router lastEndPoint newStartPoint with
            | none => .ok (p, grid)
            | some pathToStart => .ok (sweepAll clear (p ++ pathToStart) grid)

/-! ## getCoverage and the generateAll orchestration loop

`getCoverage` divides the visited cell count by the visited-plus-unvisited
cell count without guarding the denominator; in JS `0/0` is `NaN` and
`NaN < 0.99` is false.  The `while` loop of generateAll is modelled with
fuel; exhausting the fuel is reported as an error, so every theorem about a
returned value holds for all fuels. -/

/-- The JS numbers that the coverage computation can produce. -/
inductive JSNum where
  | nan
  | inf
  | num (q : ℚ)
deriving DecidableEq, Repr

/-- JS division of the two cell counts: `0/0` is NaN, `n/0` with positive `n`
is Infinity, otherwise the rational quotient. -/
def jsDivNat (a b : ℕ) : JSNum :=
  if b = 0 then (if a = 0 then .nan else .inf) else .num ((a : ℚ) / (b : ℚ))

/-- JS `<` against a rational bound: NaN comparisons are false, Infinity is
not below any rational. -/
def jsLt (x : JSNum) (y : ℚ) : Bool :=
  match x with
  | .nan => false
  | .inf => false
  | .num q => decide (q < y)

/-- getCoverage: visited cells over visited-plus-unvisited cells. -/
def getCoverage (grid : List Cell) : JSNum :=
  let unvisitedCells := (grid.filter (fun f => decide (f.visited = Visit.unvisited))).length
  let visitedCells := (grid.filter (fun f => decide (f.visited = Visit.visited))).length
  jsDivNat visitedCells (unvisitedCells + visitedCells)

/-- The `while (getCoverage() < 0.99)` loop of generateAll: run a sweep pass,
stop when the path's vertex count did not grow past `previousLength`. -/
def mowLoop (router : Pos → Pos → Option (List Pos)) (clear : Pos → Pos → Bool) :
    ℕ → Option (List Pos) → List Cell → ℕ → Except String (Option (List Pos) × List Cell)
  | fuel, path, grid, previousLength =>
    if jsLt (getCoverage grid) (99/100) then
      match fuel with
      | 0 => .error "fuel exhausted"
      | fuel + 1 =>
          match calculateMowPath router clear path grid with
          | .error e => .error e
          | .ok (p2, grid2) =>
              if p2.length = previousLength then .ok (some p2, grid2)
              else mowLoop router clear fuel (some p2) grid2 p2.length
    else .ok (path, grid)

/-- The mow-path portion of generateAll: run the loop from a null path, then
prune with half the lane width. -/
def generateAllPath (router : Pos → Pos → Option (List Pos)) (clear : Pos → Pos → Bool)
    (dist : Pos → Pos → ℚ) (fuel : ℕ) (grid : List Cell) (laneWidth : ℚ) :
    Except String (Option (List Pos) × List Cell) :=
  match mowLoop router clear fuel none grid 0 with
  | .error e => .error e
  | .ok (path, grid2) =>
      match pruneExcessPoints dist path (laneWidth / 2) with
      | .error e => .error e
      | .ok pruned => .ok (pruned, grid2)

/-! ## Boundary conditioner (boundaries.ts lines 84-123, generateAll)

`differenceObstaclesFromBoundary` clips the obstacles that are not fully
within the boundary out of it; `removeOrphanedObstacles` keeps the obstacles
fully within the boundary it is given.  In `generateAll` the latter is called
with the WORKING boundary (the output of the former), not the raw boundary. -/

def differenceObstaclesFromBoundary (g : Geo) (boundary : Ring)
    (obstacles : Option (List Ring)) : Option Ring :=
  match obstacles with
  | none => some boundary
  | some obs =>
      let intersectingObstacles := obs.filter (fun o => ¬ g.within o boundary)
      if intersectingObstacles.isEmpty then some boundary
      else g.difference boundary intersectingObstacles

def removeOrphanedObstacles (g : Geo) (boundary : Ring)
    (obstacles : Option (List Ring)) : Option (List Ring) :=
  match obstacles with
  | none => none
  | some obs => some (obs.filter (fun o => g.within o boundary))

/-- The boundary-conditioning prefix of generateAll: compute the working
boundary, return early when the difference is null, then compute the working
obstacles against the working boundary. -/
def generateAllConditioned (g : Geo) (rawBoundary : Ring)
    (rawObstacles : Option (List Ring)) : Option (Ring × Option (List Ring)) :=
  match differenceObstaclesFromBoundary g rawBoundary rawObstacles with
  | none => none
  | some b => some (b, removeOrphanedObstacles g b rawObstacles)

/-! ## calculateClearPath (voronoi-roadmap.ts, lines 228-466)

The clear-path router.  Its turf primitives are fields of `RouterGeo`:
`clear a b` stands for `isPathClear(lineString [a, b], boundaryAndObstacles)`
(the multipolygon is built once from the boundary and obstacles at the top of
the function and is absorbed into the parameter), `nearest` for
`turf.nearestPointOnLine`, `len` for `turf.length`, `bearingP` for
`turf.bearing`, `destination` for `turf.destination`, and `lineSplit` for
`turf.lineSplit`.  The adjacency graph (a JS Map) is modelled as a function
from fingerprints to optional edge lists: the map's only observable uses are
`has`, `get` and per-key push order, all of which the function model
preserves; JS `Infinity` distances are `none`.  The `while` loops of Dijkstra
and of path reconstruction are modelled with fuel, exhaustion reported as an
error, so theorems about returned values hold for every fuel. -/

structure RouterGeo where
  clear : Pos → Pos → Bool
  nearest : List Pos → Pos → Pos
  len : List Pos → ℚ
  bearingP : Pos → Pos → ℚ
  destination : Pos → ℚ → ℚ → Pos
  lineSplit : List Pos → List Pos → List (List Pos)

/-- One out-edge of the adjacency graph: target fingerprint, length in meters,
and the oriented polyline. -/
structure GEdge where
  node : Fp
  distance : ℚ
  path : List Pos
deriving DecidableEq, Repr

/-- The adjacency graph: JS `Map<string, edge[]>` as a partial function. -/
abbrev Graph := Fp → Option (List GEdge)

/-- `Map.get(k)` defaulted to the empty list (only applied to existing keys). -/
def gGet (m : Graph) (k : Fp) : List GEdge := (m k).getD []

/-- Initialize the key with an empty edge list when absent. -/
def gInit (m : Graph) (k : Fp) : Graph :=
  fun k2 => if k2 = k then some (gGet m k) else m k2

/-- `Map.get(k)!.push(edge)`. -/
def gPush (m : Graph) (k : Fp) (ed : GEdge) : Graph :=
  fun k2 => if k2 = k then some (gGet m k ++ [ed]) else m k2

/-- The body of the calculateAdjacencyGraph fold: insert one roadmap polyline
in both directions, each direction carrying its own oriented coordinate list
(`startKey`/`endKey` are the fingerprints of the first and last coordinate;
both keys are initialized, then the forward edge is pushed under the start
key and the reversed edge under the end key). -/
def adjacencyStep (len : List Pos → ℚ) (graph : Graph) (road : List Pos) : Graph :=
  gPush
    (gPush (gInit (gInit graph (fpp (road.headD (0, 0)))) (fpp (road.getLastD (0, 0))))
      (fpp (road.headD (0, 0)))
      ⟨fpp (road.getLastD (0, 0)), len road, road⟩)
    (fpp (road.getLastD (0, 0)))
    ⟨fpp (road.headD (0, 0)), len road, road.reverse⟩

/-- calculateAdjacencyGraph: fold the roadmap into an empty map. -/
def calculateAdjacencyGraph (len : List Pos → ℚ) (voronoiRoadmap : List (List Pos)) : Graph :=
  voronoiRoadmap.foldl (adjacencyStep len) (fun _ => none)

/-- `totalDistance < distances.get(neighbor)` with `none` as Infinity on both
sides (Infinity is smaller than nothing, everything finite is smaller than
Infinity). -/
def ltInfInf (a b : Option ℚ) : Bool :=
  match a with
  | none => false
  | some q => ltInf q b

/-- Dijkstra working state: tentative distances (none = Infinity), predecessor
map (node and the oriented polyline used to reach it), and the pending queue. -/
structure DijkstraState where
  distances : Fp → Option ℚ
  previous : Fp → Option (Fp × List Pos)
  pq : List (Fp × ℚ)

/-- Stable insertion into the queue sorted by distance (equal keys keep
their existing order, matching the stable JS array sort). -/
def insertByDist (x : Fp × ℚ) : List (Fp × ℚ) → List (Fp × ℚ)
  | [] => [x]
  | y :: ys => if x.2 < y.2 then x :: y :: ys else y :: insertByDist x ys

/-- The JS `pq.sort((a, b) => a[1] - b[1])`: a stable sort by distance. -/
def sortByDist (l : List (Fp × ℚ)) : List (Fp × ℚ) :=
  l.foldl (fun acc x => insertByDist x acc) []

/-- The relaxation of all edges leaving the current node (the `forEach` inside
the Dijkstra loop): on strict improvement, record distance, predecessor with
its polyline, and push the neighbor. -/
def relaxEdges (currentNode : Fp) (currentDistance : Option ℚ) :
    List GEdge → DijkstraState → DijkstraState
  | [], st => st
  | ed :: rest, st =>
      let totalDistance := currentDistance.map (· + ed.distance)
      if ltInfInf totalDistance (st.distances ed.node) then
        relaxEdges currentNode currentDistance rest
          ⟨fun k => if k = ed.node then totalDistance else st.distances k,
           fun k => if k = ed.node then some (currentNode, ed.path) else st.previous k,
           st.pq ++ [(ed.node, totalDistance.getD 0)]⟩
      else relaxEdges currentNode currentDistance rest st

/-- The reconstruction loop: walk predecessors from the end key, prepending
each stored polyline, until a node with no predecessor. -/
def reconstructPath (previous : Fp → Option (Fp × List Pos)) :
    ℕ → Fp → List Pos → Except String (List Pos)
  | 0, _, _ => .error "path reconstruction did not terminate"
  | fuel + 1, node, fullPath =>
      match previous node with
      | none => .ok fullPath
      | some (prevNode, pl) => reconstructPath previous fuel prevNode (pl ++ fullPath)

/-- The main Dijkstra loop: sort the queue, shift the closest node, return the
reconstructed line string at the end key, otherwise relax its edges. -/
def dijkstraLoop (graph : Graph) (endKey : Fp) :
    ℕ → DijkstraState → Except String (Option (List Pos))
  | 0, _ => .error "dijkstra did not terminate"
  | fuel + 1, st =>
      match sortByDist st.pq with
      | [] => .ok none
      | (currentNode, _) :: pqRest =>
          let currentDistance := st.distances currentNode
          if currentNode = endKey then
            match reconstructPath st.previous fuel currentNode [] with
            | .error msg => .error msg
            | .ok fullPath => (lineStringF fullPath).map some
          else
            dijkstraLoop graph endKey fuel
              (relaxEdges currentNode currentDistance (gGet graph currentNode)
                ⟨st.distances, st.previous, pqRest⟩)

/-- getDijkstraPath: bail out to null when either endpoint fingerprint is not
a graph key; start with distance 0 at the start key and it alone queued. -/
def getDijkstraPath (graph : Graph) (fuel : ℕ) (start finish : Pos) :
    Except String (Option (List Pos)) :=
  let startKey := fpp start
  let endKey := fpp finish
  if (graph startKey).isNone ∨ (graph endKey).isNone then .ok none
  else
    dijkstraLoop graph endKey fuel
      ⟨fun k => if k = startKey then some 0 else none, fun _ => none, [(startKey, 0)]⟩

/-- One endpoint's best stitch onto the roadmap: shortest distance so far
(none = Infinity), the stitch segment, and the index of the landing road. -/
structure Stitch where
  dist : Option ℚ
  path : Option (List Pos)
  roadIdx : Option ℕ

/-- The stitch search over the roadmap: for each road, the nearest points to
start and end, with the shortest clear candidate kept for each endpoint
independently. -/
def stitchFold (rg : RouterGeo) (roadmap : List (List Pos)) (start finish : Pos) :
    Stitch × Stitch :=
  roadmap.enum.foldl (fun (st : Stitch × Stitch) x =>
    let road := x.2
    let tryStart := rg.nearest road start
    let tryEnd := rg.nearest road finish
    let tryStartPath := [start, tryStart]
    let tryEndPath := [tryEnd, finish]
    let startDistance := rg.len tryStartPath
    let endDistance := rg.len tryEndPath
    let st1 := if ltInf startDistance st.1.dist && rg.clear start tryStart then
        ⟨some startDistance, some tryStartPath, some x.1⟩ else st.1
    let st2 := if ltInf endDistance st.2.dist && rg.clear tryEnd finish then
        ⟨some endDistance, some tryEndPath, some x.1⟩ else st.2
    (st1, st2)) (⟨none, none, none⟩, ⟨none, none, none⟩)

/-- The temporary roadmap of calculateClearPath: when both stitches exist,
split the two landing roads at the stitch points (via the short splitter
segments built from bearing/destination), drop the landing roads (object
identity, modelled by index), and append the split pieces and the two stitch
segments.  `none` when a stitch is missing (the `NoPath` log-and-return). -/
def clearPathTemp (rg : RouterGeo) (voronoiRoadmap : List (List Pos)) (start finish : Pos) :
    Option (List (List Pos)) :=
  let st := stitchFold rg voronoiRoadmap start finish
  match st.1.path, st.1.roadIdx, st.2.path, st.2.roadIdx with
  | some startPath, some si, some endPath, some ei =>
      let startPathBearing := rg.bearingP (startPath.getD 0 (0, 0)) (startPath.getD 1 (0, 0))
      let extendedStartPoint := rg.destination (startPath.getD 1 (0, 0)) (1/100) startPathBearing
      let startPathSplitter := [startPath.getD 0 (0, 0), extendedStartPoint]
      let endPathBearing := rg.bearingP (endPath.getD 1 (0, 0)) (endPath.getD 0 (0, 0))
      let extendedEndPoint := rg.destination (endPath.getD 0 (0, 0)) (1/100) endPathBearing
      let endPathSplitter := [extendedEndPoint, endPath.getD 1 (0, 0)]
      let startRoadSegment := voronoiRoadmap.getD si []
      let endRoadSegment := voronoiRoadmap.getD ei []
      let splitStartRoad := rg.lineSplit startRoadSegment startPathSplitter
      let splitEndRoad := rg.lineSplit endRoadSegment endPathSplitter
      some ((voronoiRoadmap.enum.filter (fun x => x.1 ≠ si ∧ x.1 ≠ ei)).map (·.2)
        ++ splitStartRoad ++ splitEndRoad ++ [startPath, endPath])
  | _, _, _, _ => none

/-- The final duplicate collapse of calculateClearPath: drop a coordinate when
its fingerprint equals the last kept coordinate's fingerprint. -/
def dedupFpAux (lastCoord : Pos) : List Pos → List Pos
  | [] => []
  | c :: cs =>
      if fpp c = fpp lastCoord then dedupFpAux lastCoord cs
      else c :: dedupFpAux c cs

/-- The reduce that removes consecutive duplicate points by fingerprint. -/
def dedupFp : List Pos → List Pos
  | [] => []
  | c :: cs => c :: dedupFpAux c cs

/-- calculateClearPath: the direct segment when it is clear; otherwise stitch
both endpoints onto the roadmap, build the temporary roadmap and its adjacency
graph, run Dijkstra, and collapse consecutive duplicates of the found path
(handing the result to turf.lineString, which throws on fewer than two
positions). -/
def calculateClearPath (rg : RouterGeo) (fuel : ℕ) (voronoiRoadmap : List (List Pos))
    (start finish : Pos) : Except String (Option (List Pos)) :=
  if rg.clear start finish then .ok (some [start, finish])
  else
    match clearPathTemp rg voronoiRoadmap start finish with
    | none => .ok none
    | some tempVoronoiRoadmap =>
        let newGraph := calculateAdjacencyGraph rg.len tempVoronoiRoadmap
        match getDijkstraPath newGraph fuel start finish with
        | .error msg => .error msg
        | .ok none => .ok none
        | .ok (some dijkstraPath) => (lineStringF (dedupFp dijkstraPath)).map some

/-- Planar L1 polyline length, the length oracle of the router counterexample
instance (all its lines are axis-parallel, where L1 and Euclidean agree). -/

def lenL1 : List Pos → ℚ
  | [] => 0
  | [_] => 0
  | a :: b :: rest => (|a.1 - b.1| + |a.2 - b.2|) + lenL1 (b :: rest)

/-- C1 counterexample instance.  Realizing planar geometry: working boundary
the rectangle with corners (-1,-3) and (12,3); one obstacle, the square with
corners (4,-1) and (6,1); the roadmap a single segment from (0,0) to (11,0)
that runs straight through the obstacle (calculateClearPath accepts any
roadmap input); start (2,1/2) and end (8,1/2).  The oracle tables record what
turf gives on the calls that occur: the direct segment at height 1/2 from
x=2 to x=8 crosses the obstacle (not clear), the two vertical stitches at
x=2 and x=8 are clear, nearestPointOnLine projects onto the road y=0, and
lineSplit cuts the road at the splitter's x coordinate. -/
def rgCex : RouterGeo where
  clear := fun a b => decide (¬(a.2 = 1/2 ∧ b.2 = 1/2))
  nearest := fun _ p => (p.1, 0)
  len := lenL1
  bearingP := fun _ _ => 0
  destination := fun p _ _ => p
  lineSplit := fun _ spl =>
    match spl.head? with
    | some p => [[(0, 0), (p.1, 0)], [(p.1, 0), (11, 0)]]
    | none => []

/-- The adversarial roadmap of the C1 counterexample. -/
def cexRoad : List Pos := [(0, 0), (11, 0)]

/-- A point strictly between the endpoints of a segment (the claim's notion
of a path segment passing through a region). -/
def onOpenSegment (a b p : Pos) : Prop :=
  ∃ t : ℚ, 0 < t ∧ t < 1 ∧ p.1 = a.1 + t * (b.1 - a.1) ∧ p.2 = a.2 + t * (b.2 - a.2)

/-- A point strictly inside the axis-aligned rectangle (west, south, east,
north) - here the interior of the counterexample obstacle. -/
def insideRect (w s e n : ℚ) (p : Pos) : Prop :=
  w < p.1 ∧ p.1 < e ∧ s < p.2 ∧ p.2 < n

/-- C2 counterexample geometry: a 10 by 10 square raw boundary, one obstacle
straddling its right edge, and one obstacle fully inside the raw boundary but
overlapping the straddling obstacle's clipped part.  The `within` and
`difference` tables record exactly what planar polygon geometry gives on
these rings: the straddler is not within the raw boundary, the inner obstacle
is within the raw boundary but not within the notched working boundary, and
the difference cuts the straddler's notch out. -/
def rawB0 : Ring := [(0, 0), (10, 0), (10, 10), (0, 10), (0, 0)]

def obsStraddle : Ring := [(7, -2), (12, -2), (12, 3), (7, 3), (7, -2)]

def obsInner : Ring := [(8, 1), (9, 1), (9, 2), (8, 2), (8, 1)]

def notchedB : Ring := [(0, 0), (7, 0), (7, 3), (10, 3), (10, 10), (0, 10), (0, 0)]

def gCond : Geo := { gTriv with
  within := fun o b => decide (o = obsInner ∧ b = rawB0)
  difference := fun b obs => if b = rawB0 ∧ obs = [obsStraddle] then some notchedB else none }

/-! ## Soundness of the router (amended C1)

The development below establishes: whenever calculateClearPath returns a
non-null path, and the roadmap's own segments stay clear of the forbidden
region, line splitting yields well-formed sub-polylines that preserve
clearness, lengths are nonnegative, and no two distinct points of the
temporary roadmap share a fingerprint, then the returned path starts exactly
at the start point, ends exactly at the end point, and every one of its
segments is clear. -/

/-- The consecutive coordinate pairs (the segments) of a polyline. -/
def pairsOf (l : List Pos) : List (Pos × Pos) := l.zip l.tail

/-- Every consecutive pair of the polyline satisfies `free`. -/
def PairsFree (free : Pos → Pos → Prop) (l : List Pos) : Prop :=
  ∀ p ∈ pairsOf l, free p.1 p.2

/-- A point occurring on some polyline of the list. -/
def VertIn (ls : List (List Pos)) (a : Pos) : Prop := ∃ l ∈ ls, a ∈ l

/-- What every edge stored by calculateAdjacencyGraph satisfies: its polyline
is a roadmap polyline or a reversal of one (with that polyline's length), its
first coordinate fingerprints to the key it is stored under, and its last
coordinate fingerprints to its target node. -/
def EdgeOk (len : List Pos → ℚ) (temp : List (List Pos)) (k : Fp) (ed : GEdge) : Prop :=
  (∃ road ∈ temp, (ed.path = road ∨ ed.path = road.reverse) ∧ ed.distance = len road) ∧
  (∃ h, ed.path.head? = some h ∧ fpp h = k) ∧
  (∃ t, ed.path.getLast? = some t ∧ fpp t = ed.node)

/-- The reconstructed Dijkstra path is a chain of polylines: each polyline's
head fingerprints to the key the chain has reached, its last coordinate's
fingerprint is where the chain continues, and the chain ends at the last
key. -/
def Chained (fk : Fp) : List (List Pos) → Fp → Prop
  | [], lk => fk = lk
  | pl :: rest, lk =>
      (∃ h, pl.head? = some h ∧ fpp h = fk) ∧
      ∃ t, pl.getLast? = some t ∧ Chained (fpp t) rest lk

/-- The head/last fingerprint discipline of a graph's stored edges (what
calculateAdjacencyGraph guarantees, abstracted for the Dijkstra lemmas). -/
def GraphKeyed (graph : Graph) : Prop :=
  ∀ k ed, ed ∈ gGet graph k →
    (∃ h, ed.path.head? = some h ∧ fpp h = k) ∧
    (∃ t, ed.path.getLast? = some t ∧ fpp t = ed.node)

/-- The Dijkstra loop invariant: the start key keeps distance zero, all
recorded distances are nonnegative, the start key never gains a predecessor,
every predecessor entry stores a real graph edge and points to a node that is
the start key or itself has a predecessor, and every queued key is the start
key or has a predecessor. -/
def DInv (graph : Graph) (startKey : Fp) (st : DijkstraState) : Prop :=
  st.distances startKey = some 0 ∧
  (∀ k q, st.distances k = some q → 0 ≤ q) ∧
  st.previous startKey = none ∧
  (∀ k k2 pl, st.previous k = some (k2, pl) →
    (∃ ed ∈ gGet graph k2, ed.node = k ∧ ed.path = pl) ∧
    (k2 = startKey ∨ st.previous k2 ≠ none)) ∧
  (∀ e ∈ st.pq, e.1 = startKey ∨ st.previous e.1 ≠ none)

/-- What a successful start-side stitch records: a real roadmap index, the
two-point segment from the start point to the nearest point on that road, and
the clearness check the code performed on it. -/
def StitchStartOk (rg : RouterGeo) (roadmap : List (List Pos)) (start : Pos) (s : Stitch) :
    Prop :=
  (s.path = none ∧ s.roadIdx = none) ∨
  (∃ i road, s.roadIdx = some i ∧ roadmap.get? i = some road ∧
    s.path = some [start, rg.nearest road start] ∧
    rg.clear start (rg.nearest road start) = true)

/-- The end-side counterpart (segment from nearest point to the end point). -/
def StitchEndOk (rg : RouterGeo) (roadmap : List (List Pos)) (finish : Pos) (s : Stitch) :
    Prop :=
  (s.path = none ∧ s.roadIdx = none) ∨
  (∃ i road, s.roadIdx = some i ∧ roadmap.get? i = some road ∧
    s.path = some [rg.nearest road finish, finish] ∧
    rg.clear (rg.nearest road finish) finish = true)

/-- Witness instance for the amended C1: an always-clear oracle, an empty
roadmap, and the direct-line branch. -/
def rgW : RouterGeo where
  clear := fun _ _ => true
  nearest := fun _ p => p
  len := fun _ => 0
  bearingP := fun _ _ => 0
  destination := fun p _ _ => p
  lineSplit := fun _ _ => []

/-! ## Theorems -/

theorem pruneAux_chain (dist : Pos → Pos → ℚ) (d : ℚ) :
    ∀ (cs : List Pos) (lastKept : Pos),
      List.Chain' (fun a b => dist a b > d) (lastKept :: pruneAux dist d lastKept cs)
  | [], _ => List.chain'_singleton _
  | c :: cs, lastKept => by
      unfold pruneAux
      by_cases h : dist lastKept c > d
      · simp only [h, if_pos]
        exact List.chain'_cons.mpr ⟨h, pruneAux_chain dist d cs c⟩
      · simp only [h, if_neg, not_false_eq_true]
        exact pruneAux_chain dist d cs lastKept

theorem pruneAux_of_chain (dist : Pos → Pos → ℚ) (d : ℚ) :
    ∀ (cs : List Pos) (lastKept : Pos),
      List.Chain' (fun a b => dist a b > d) (lastKept :: cs) →
      pruneAux dist d lastKept cs = cs
  | [], _, _ => rfl
  | c :: cs, lastKept, h => by
      rcases List.chain'_cons.mp h with ⟨hd, htl⟩
      unfold pruneAux
      simp only [hd, if_pos]
      exact congrArg (c :: ·) (pruneAux_of_chain dist d cs c htl)

theorem pruneCoords_idem (dist : Pos → Pos → ℚ) (d : ℚ) (coords : List Pos) :
    pruneCoords dist d (pruneCoords dist d coords) = pruneCoords dist d coords := by
  cases coords with
  | nil => rfl
  | cons c cs =>
      show pruneCoords dist d (c :: pruneAux dist d c cs) = _
      unfold pruneCoords
      exact congrArg (c :: ·) (pruneAux_of_chain dist d _ c (pruneAux_chain dist d cs c))

/-- C7: applying pruneExcessPoints twice with the same pruneDistance yields the
same result as applying it once (null paths pass through, a throwing first
application propagates, and a successful pruned polyline is a fixed point of
the pruning fold). -/
theorem pruneExcessPoints_idempotent (dist : Pos → Pos → ℚ) (path : Option (List Pos)) (d : ℚ) :
    (pruneExcessPoints dist path d).bind (fun p => pruneExcessPoints dist p d) =
      pruneExcessPoints dist path d := by
  match path with
  | none => rfl
  | some coords =>
      by_cases h : (pruneCoords dist d coords).length < 2
      · simp [pruneExcessPoints, lineStringF, h, Except.map, Except.bind]
      · simp [pruneExcessPoints, lineStringF, h, Except.map, Except.bind, pruneCoords_idem]

/-- C9: pruneExcessPoints is not total on non-null paths: whenever fewer than
two vertices survive the pruning fold, building the output line string raises
an error instead of returning a polyline. -/
theorem pruneExcessPoints_errs_of_short (dist : Pos → Pos → ℚ) (d : ℚ) (coords : List Pos)
    (h : (pruneCoords dist d coords).length < 2) :
    ∃ msg, pruneExcessPoints dist (some coords) d = .error msg := by
  refine ⟨"coordinates must be an array of two or more positions", ?_⟩
  simp [pruneExcessPoints, lineStringF, h, Except.map]

/-- Witness for C9 at a concrete input: the two-point path
`[(0,0), (3,3)]` with every distance reported as zero and pruneDistance 1
keeps only its first vertex, and pruneExcessPoints raises an error on it. -/
theorem pruneExcessPoints_errs_witness :
    (pruneCoords (fun _ _ => 0) 1 [((0 : ℚ), (0 : ℚ)), (3, 3)]).length < 2 ∧
      ∃ msg, pruneExcessPoints (fun _ _ => 0) (some [((0 : ℚ), (0 : ℚ)), (3, 3)]) 1 = .error msg :=
  ⟨by decide, pruneExcessPoints_errs_of_short (fun _ _ => 0) 1 _ (by decide)⟩

theorem branchStep_fst (st : (Fp → ℕ) × Finset Fp) (key k : Fp) :
    (branchStep st key).1 k = if k = key then st.1 key + 1 else st.1 k := rfl

theorem branchStep_mem (st : (Fp → ℕ) × Finset Fp) (key k : Fp) :
    k ∈ (branchStep st key).2 ↔ (k = key ∧ st.1 key + 1 > 2) ∨ k ∈ st.2 := by
  unfold branchStep
  by_cases h : st.1 key + 1 > 2 <;> simp [h] <;> tauto

theorem branchStep_inv {st seen} (h : BranchInv st seen) (key : Fp) :
    BranchInv (branchStep st key) (seen ++ [key]) := by
  obtain ⟨hc, hm⟩ := h
  constructor
  · intro k
    rw [branchStep_fst, List.count_append]
    by_cases hk : k = key <;> simp [hk, hc, List.count_singleton]
  · intro k
    rw [branchStep_mem, List.count_append, hc, hm]
    by_cases hk : k = key <;> simp [hk, List.count_singleton] <;> omega

theorem branchFold_inv (keys : List Fp) :
    ∀ st seen, BranchInv st seen →
      BranchInv (keys.foldl branchStep st) (seen ++ keys) := by
  induction keys with
  | nil => intro st seen h; simpa using h
  | cons key rest ih =>
      intro st seen h
      have := ih (branchStep st key) (seen ++ [key]) (branchStep_inv h key)
      simpa using this

theorem branchFold_flatten (segments : List (Pos × Pos)) :
    ∀ init, segments.foldl (fun st seg => branchStep (branchStep st (fpp seg.1)) (fpp seg.2)) init =
      (endpointKeys segments).foldl branchStep init := by
  induction segments with
  | nil => intro init; rfl
  | cons s rest ih =>
      intro init
      simp only [List.foldl_cons, endpointKeys, List.flatMap_cons, List.foldl_append]
      exact ih _

theorem identifyBranchPoints_eq_fold (segments : List (Pos × Pos)) :
    identifyBranchPoints segments =
      ((endpointKeys segments).foldl branchStep (fun _ => 0, ∅)).2 := by
  unfold identifyBranchPoints
  rw [branchFold_flatten]

theorem endpointCount_eq_count (segments : List (Pos × Pos)) (k : Fp) :
    endpointCount segments k = (endpointKeys segments).count k := by
  induction segments with
  | nil => rfl
  | cons s rest ih =>
      unfold endpointCount endpointKeys at *
      simp only [List.map_cons, List.sum_cons, List.flatMap_cons, List.count_append, ih]
      simp only [List.count_cons, List.count_nil]
      by_cases h1 : fpp s.1 = k <;> by_cases h2 : fpp s.2 = k <;> simp [h1, h2] <;> omega

/-- C8: a fingerprint key is in the branch-point set produced by
identifyBranchPoints if and only if it occurs strictly more than twice as a
segment endpoint, counting both endpoints of every segment. -/
theorem identifyBranchPoints_iff (segments : List (Pos × Pos)) (k : Fp) :
    k ∈ identifyBranchPoints segments ↔ endpointCount segments k > 2 := by
  rw [identifyBranchPoints_eq_fold, endpointCount_eq_count]
  have h := branchFold_inv (endpointKeys segments) (fun _ => 0, ∅) []
    ⟨fun k => by simp, fun k => by simp⟩
  simpa using h.2 k

theorem mbbStep_angle (g : Geo) (hull : Ring) (c : Pos) (numPoints : ℕ) (st) (i : ℕ) :
    (mbbStep g hull c numPoints st i).2.2 =
      g.bearing (hull.getD i (0, 0)) (hull.getD ((i + 1) % numPoints) (0, 0)) := by
  unfold mbbStep
  dsimp only
  split <;> rfl

theorem mbbStep_some (g : Geo) (hull : Ring) (c : Pos) (numPoints : ℕ) {st} (i : ℕ)
    (h : st.1.isSome ∧ (st.2.1 : Option Ring).isSome) :
    ((mbbStep g hull c numPoints st i).1.isSome ∧
      (mbbStep g hull c numPoints st i).2.1.isSome) := by
  unfold mbbStep
  dsimp only
  split
  · simp
  · exact ⟨h.1, h.2⟩

theorem mbbFold_some (g : Geo) (hull : Ring) (c : Pos) (numPoints : ℕ) :
    ∀ (l : List ℕ) (st : Option ℚ × Option Ring × ℚ),
      st.1.isSome ∧ st.2.1.isSome →
      ((l.foldl (mbbStep g hull c numPoints) st).1.isSome ∧
        (l.foldl (mbbStep g hull c numPoints) st).2.1.isSome)
  | [], _, h => h
  | i :: rest, st, h =>
      mbbFold_some g hull c numPoints rest _ (mbbStep_some g hull c numPoints i h)

theorem mbbStep_some_of_none (g : Geo) (hull : Ring) (c : Pos) (numPoints : ℕ) {st} (i : ℕ)
    (h : st.1 = none) :
    ((mbbStep g hull c numPoints st i).1.isSome ∧
      (mbbStep g hull c numPoints st i).2.1.isSome) := by
  unfold mbbStep
  simp [h, ltInf]

theorem mbbLoop_some (g : Geo) (hull : Ring) (c : Pos) {numPoints : ℕ} (h : 1 ≤ numPoints) :
    ((mbbLoop g hull c numPoints).2.1 : Option Ring).isSome := by
  unfold mbbLoop
  obtain ⟨m, rfl⟩ : ∃ m, numPoints = m + 1 := ⟨numPoints - 1, by omega⟩
  rw [List.range_succ_eq_map]
  exact (mbbFold_some g hull c _ _ _
    (mbbStep_some_of_none g hull c _ 0 rfl)).2

theorem mbbLoop_angle (g : Geo) (hull : Ring) (c : Pos) {numPoints : ℕ} (h : 1 ≤ numPoints) :
    (mbbLoop g hull c numPoints).2.2 =
      g.bearing (hull.getD (numPoints - 1) (0, 0)) (hull.getD 0 (0, 0)) := by
  unfold mbbLoop
  obtain ⟨m, rfl⟩ : ∃ m, numPoints = m + 1 := ⟨numPoints - 1, by omega⟩
  rw [List.range_succ, List.foldl_append, List.foldl_cons, List.foldl_nil, mbbStep_angle]
  congr 1
  simp

theorem mbbLoop_none (g : Geo) (hull : Ring) (c : Pos) :
    (mbbLoop g hull c 0) = (none, none, 0) := rfl

/-- C3 counterexample: a degenerate hull ring with only two distinct vertices
(so fewer than three) on which getMinBoundingBox with orientation offset 0
returns a (degenerate) rectangle instead of signalling DegenerateHull: the
calipers loop runs once its ring has at least two coordinates, and any finite
bounding-box area beats the initial Infinity. -/
theorem getMinBoundingBox_degenerate_no_error :
    ([((0 : ℚ), (0 : ℚ)), (1, 0), (0, 0)] : Ring).dedup.length < 3 ∧
      getMinBoundingBox gTriv [((0 : ℚ), (0 : ℚ)), (1, 0), (0, 0)] 0 =
        .ok [((0 : ℚ), (0 : ℚ))] := by
  constructor
  · decide
  · rfl

/-- C3 as amended: getMinBoundingBox throws (the DegenerateHull signal) if and
only if the hull ring has at most one coordinate and the orientation offset is
not positive.  Degenerate hulls whose ring still has two or more coordinates
(fewer than three distinct vertices included) produce a degenerate rectangle,
and a positive orientation offset always produces a rectangle. -/
theorem getMinBoundingBox_error_iff (g : Geo) (hull : Ring) (o : ℚ) :
    (∃ msg, getMinBoundingBox g hull o = .error msg) ↔ (hull.length ≤ 1 ∧ ¬0 < o) := by
  unfold getMinBoundingBox
  by_cases ho : 0 < o
  · simp [ho]
  · simp only [ho, if_false, if_neg, not_false_eq_true]
    by_cases hl : hull.length ≤ 1
    · have h0 : hull.length - 1 = 0 := by omega
      rw [h0, mbbLoop_none]
      simp [hl, ho]
    · have h1 : 1 ≤ hull.length - 1 := by omega
      have := mbbLoop_some g hull (g.centroid hull) h1
      obtain ⟨b, hb⟩ := Option.isSome_iff_exists.mp this
      rw [hb]
      simp [hl]

/-- Witness for the amended C3: with the concrete instance, a two-coordinate
degenerate ring and orientation 0 make getMinBoundingBox throw. -/
theorem getMinBoundingBox_error_iff_witness :
    ∃ msg, getMinBoundingBox gTriv [((5 : ℚ), (5 : ℚ))] 0 = .error msg :=
  (getMinBoundingBox_error_iff gTriv [((5 : ℚ), (5 : ℚ))] 0).mpr (by constructor <;> decide)

/-- C4: with a positive user orientation offset, the returned box is the
axis-aligned bounding box of the hull rotated about its centroid by minus
(bearing of the last hull edge considered plus the offset), rotated back by
the same angle - the last edge, not the winning edge. -/
theorem getMinBoundingBox_offset (g : Geo) (hull : Ring) (o : ℚ)
    (h2 : 2 ≤ hull.length) (ho : 0 < o) :
    getMinBoundingBox g hull o =
      .ok (g.rotate (g.bearing (hull.getD (hull.length - 2) (0, 0)) (hull.getD 0 (0, 0)) + o)
            (g.centroid hull)
            (g.bboxPolygon (g.bbox (g.rotate
              (-(g.bearing (hull.getD (hull.length - 2) (0, 0)) (hull.getD 0 (0, 0)) + o))
              (g.centroid hull) hull)))) := by
  unfold getMinBoundingBox
  dsimp only
  have h1 : 1 ≤ hull.length - 1 := by omega
  rw [mbbLoop_angle g hull (g.centroid hull) h1]
  have : hull.length - 1 - 1 = hull.length - 2 := by omega
  rw [this]
  simp [ho]

/-- Witness for C4 at a concrete input: the unit-square ring with offset 90
under the concrete instance. -/
theorem getMinBoundingBox_offset_witness :
    getMinBoundingBox gTriv [((0 : ℚ), (0 : ℚ)), (1, 0), (1, 1), (0, 1), (0, 0)] 90 =
      .ok [((0 : ℚ), (0 : ℚ))] :=
  (getMinBoundingBox_offset gTriv [((0 : ℚ), (0 : ℚ)), (1, 0), (1, 1), (0, 1), (0, 0)] 90
    (by decide) (by decide)).trans rfl

/-- C5: every cell produced by getCoverageGrid is labelled unvisitable exactly
when its centroid is outside the 1 cm eroded working boundary or inside some
obstacle, is labelled unvisited in all other cases, and is never labelled
visited by the grid builder. -/
theorem getCoverageGrid_labels (g : Geo) (b : Ring) (obs : Option (List Ring))
    (mbb : Ring) (lw : ℚ) (sp : ℤ) (cell : Cell)
    (hc : cell ∈ getCoverageGrid g b obs mbb lw sp) :
    cell.visited ≠ Visit.visited ∧
      (cell.visited = Visit.unvisitable ↔
        (g.containsPt (g.buffer b (-(1/100))) cell.centroid = false ∨
          ∃ o ∈ obs.getD [], g.containsPt o cell.centroid = true)) ∧
      (cell.visited = Visit.unvisited ↔
        (g.containsPt (g.buffer b (-(1/100))) cell.centroid = true ∧
          ∀ o ∈ obs.getD [], g.containsPt o cell.centroid = false)) := by
  unfold getCoverageGrid at hc
  simp only [List.mem_map] at hc
  obtain ⟨x, _, rfl⟩ := hc
  dsimp only
  by_cases hb : g.containsPt (g.buffer b (-(1/100))) (g.centroid x.1) = true
  · by_cases ho : (obs.getD []).any (fun o => g.containsPt o (g.centroid x.1)) = true
    · simp only [hb, ho, if_true, if_pos]
      rw [List.any_eq_true] at ho
      refine ⟨by simp, ?_, ?_⟩ <;> simp_all
    · simp only [hb, ho, if_true, if_pos, if_neg, Bool.false_eq_true, not_false_eq_true]
      rw [Bool.not_eq_true, List.any_eq_false] at ho
      refine ⟨by simp, ?_, ?_⟩ <;> simp_all
  · simp only [hb, if_neg, Bool.false_eq_true, not_false_eq_true]
    rw [Bool.not_eq_true] at hb
    refine ⟨by simp, ?_, ?_⟩ <;> simp_all

/-- Witness for C5 at a concrete input: the single cell that gGrid produces is
not labelled visited. -/
theorem getCoverageGrid_labels_witness :
    (⟨[((0 : ℚ), (0 : ℚ))], 0, 0, Visit.unvisitable, (0, 0)⟩ : Cell).visited ≠ Visit.visited :=
  (getCoverageGrid_labels gGrid [] none [] 1 0
    ⟨[((0 : ℚ), (0 : ℚ))], 0, 0, Visit.unvisitable, (0, 0)⟩ (by decide)).1

/-- C6: when the sweep driver is called with a non-empty existing path and the
clear-path router fails on the resume route from the path's last vertex to the
first unvisited cell's centroid, calculateMowPath returns the input path
unchanged and leaves every cell's visited state untouched - the failure is not
fatal (no exception). -/
theorem calculateMowPath_router_failure (router : Pos → Pos → Option (List Pos))
    (clear : Pos → Pos → Bool) (p : List Pos) (grid : List Cell) (lastPt : Pos)
    (hlast : p.getLast? = some lastPt)
    (hunv : (grid.filter (fun f => decide (f.visited = Visit.unvisited))).isEmpty = false)
    (hrouter : router lastPt
      ((grid.filter (fun f => decide (f.visited = Visit.unvisited))).headD default).centroid =
        none) :
    calculateMowPath router clear (some p) grid = .ok (p, grid) := by
  unfold calculateMowPath
  have h1 : (grid.filter (fun f => decide (f.visited = Visit.unvisited))).isEmpty ≠ true := by
    rw [hunv]; exact Bool.false_ne_true
  simp only [hlast, if_neg h1]
  rw [hrouter]

/-- Witness for C6 at a concrete input: a one-point path, one unvisited cell,
and a router that always fails. -/
theorem calculateMowPath_router_failure_witness :
    calculateMowPath (fun _ _ => none) (fun _ _ => true)
        (some [((0 : ℚ), (0 : ℚ))]) [⟨[], 0, 0, Visit.unvisited, (5, 5)⟩] =
      .ok ([((0 : ℚ), (0 : ℚ))], [⟨[], 0, 0, Visit.unvisited, (5, 5)⟩]) :=
  calculateMowPath_router_failure (fun _ _ => none) (fun _ _ => true)
    [((0 : ℚ), (0 : ℚ))] [⟨[], 0, 0, Visit.unvisited, (5, 5)⟩] ((0 : ℚ), (0 : ℚ))
    rfl (by decide) rfl

/-- C10: when every grid cell is unvisitable, the coverage ratio is the
unguarded 0/0 division (NaN), the loop guard `coverage < 0.99` is false, so
no sweep pass runs and the resulting mow path is null (not an empty polyline
and not an error), the grid untouched - for every fuel. -/
theorem generateAll_all_unvisitable (router : Pos → Pos → Option (List Pos))
    (clear : Pos → Pos → Bool) (dist : Pos → Pos → ℚ) (fuel : ℕ) (grid : List Cell)
    (laneWidth : ℚ) (h : ∀ c ∈ grid, c.visited = Visit.unvisitable) :
    getCoverage grid = JSNum.nan ∧
      generateAllPath router clear dist fuel grid laneWidth = .ok (none, grid) := by
  have hu : grid.filter (fun f => decide (f.visited = Visit.unvisited)) = [] := by
    rw [List.filter_eq_nil_iff]
    intro c hc
    simp [h c hc]
  have hv : grid.filter (fun f => decide (f.visited = Visit.visited)) = [] := by
    rw [List.filter_eq_nil_iff]
    intro c hc
    simp [h c hc]
  have hcov : getCoverage grid = JSNum.nan := by
    unfold getCoverage
    rw [hu, hv]
    rfl
  refine ⟨hcov, ?_⟩
  unfold generateAllPath mowLoop
  rw [hcov]
  rfl

/-- Witness for C10 at a concrete input: a one-cell all-unvisitable grid. -/
theorem generateAll_all_unvisitable_witness :
    getCoverage [⟨[], 0, 0, Visit.unvisitable, (0, 0)⟩] = JSNum.nan ∧
      generateAllPath (fun _ _ => none) (fun _ _ => true) (fun _ _ => 0) 5
          [⟨[], 0, 0, Visit.unvisitable, (0, 0)⟩] 1 =
        .ok (none, [⟨[], 0, 0, Visit.unvisitable, (0, 0)⟩]) :=
  generateAll_all_unvisitable (fun _ _ => none) (fun _ _ => true) (fun _ _ => 0) 5
    [⟨[], 0, 0, Visit.unvisitable, (0, 0)⟩] 1 (by decide)

/-- C1 counterexample: calculateClearPath returns a path whose segment from
(0,0) to (8,0) passes through the interior of the obstacle square with
corners (4,-1) and (6,1) (at the point (5,0)): Dijkstra routes along the
supplied roadmap, and nothing re-checks the roadmap's own segments against
the forbidden region.  (The endpoints are still correct here; the crossing
alone falsifies the claim.) -/
theorem calculateClearPath_crosses_cex :
    calculateClearPath rgCex 20 [cexRoad] (2, 1/2) (8, 1/2) =
        .ok (some [((2 : ℚ), (1/2 : ℚ)), (2, 0), (0, 0), (8, 0), (8, 1/2)]) ∧
      (((0 : ℚ), (0 : ℚ)), ((8 : ℚ), (0 : ℚ))) ∈
        ([((2 : ℚ), (1/2 : ℚ)), (2, 0), (0, 0), (8, 0), (8, 1/2)].zip
          [((2 : ℚ), (0 : ℚ)), (0, 0), (8, 0), (8, 1/2)]) ∧
      ∃ p, onOpenSegment (0, 0) (8, 0) p ∧ insideRect 4 (-1) 6 1 p := by
  refine ⟨by with_unfolding_all rfl, by norm_num, ⟨(5, 0), ⟨5/8, by norm_num⟩, by norm_num [insideRect]⟩⟩

/-- C2 counterexample: with the straddling and inner obstacles, the working
obstacle set that generateAll computes is empty, while the set of obstacles
fully contained in the raw boundary is the inner obstacle alone - the code
filters against the working boundary, in which the inner obstacle no longer
lies. -/
theorem conditioner_obstacles_cex :
    generateAllConditioned gCond rawB0 (some [obsStraddle, obsInner]) =
        some (notchedB, some []) ∧
      [obsStraddle, obsInner].filter (fun o => gCond.within o rawB0) = [obsInner] ∧
      ([] : List Ring) ≠ [obsInner] := by
  refine ⟨by decide, by decide, by decide⟩

/-- C2 as amended: the working obstacle set is exactly the raw obstacles that
lie entirely within the WORKING boundary (the raw boundary minus the
straddling obstacles), not the raw boundary. -/
theorem conditioner_obstacles_working (g : Geo) (rawBoundary : Ring)
    (rawObstacles : Option (List Ring)) (b : Ring)
    (h : differenceObstaclesFromBoundary g rawBoundary rawObstacles = some b) :
    generateAllConditioned g rawBoundary rawObstacles =
      some (b, rawObstacles.map (fun obs => obs.filter (fun o => g.within o b))) := by
  unfold generateAllConditioned removeOrphanedObstacles
  rw [h]
  cases rawObstacles <;> rfl

/-- Witness for the amended C2 at the counterexample inputs. -/
theorem conditioner_obstacles_working_witness :
    generateAllConditioned gCond rawB0 (some [obsStraddle, obsInner]) =
      some (notchedB, some ([obsStraddle, obsInner].filter (fun o => gCond.within o notchedB))) :=
  conditioner_obstacles_working gCond rawB0 (some [obsStraddle, obsInner]) notchedB (by decide)

theorem gGet_gInit (m : Graph) (k k2 : Fp) : gGet (gInit m k) k2 = gGet m k2 := by
  unfold gGet gInit
  by_cases h : k2 = k <;> simp [h, gGet]

theorem gGet_gPush (m : Graph) (k k2 : Fp) (ed : GEdge) :
    gGet (gPush m k ed) k2 = if k2 = k then gGet m k ++ [ed] else gGet m k2 := by
  unfold gGet gPush
  by_cases h : k2 = k <;> simp [h, gGet]

theorem getLast?_eq_getLastD {α : Type} (l : List α) (d : α) (h : l ≠ []) :
    l.getLast? = some (l.getLastD d) := by
  rw [List.getLastD_eq_getLast?]
  cases hx : l.getLast? with
  | none => exact absurd (List.getLast?_eq_none_iff.mp hx) h
  | some x => rfl

theorem mem_adjacencyStep {len : List Pos → ℚ} {graph : Graph} {road : List Pos} {k : Fp}
    {ed : GEdge} (hmem : ed ∈ gGet (adjacencyStep len graph road) k) :
    ed ∈ gGet graph k ∨
      (ed = ⟨fpp (road.getLastD (0, 0)), len road, road⟩ ∧ k = fpp (road.headD (0, 0))) ∨
      (ed = ⟨fpp (road.headD (0, 0)), len road, road.reverse⟩ ∧
        k = fpp (road.getLastD (0, 0))) := by
  unfold adjacencyStep at hmem
  simp only [gGet_gPush, gGet_gInit] at hmem
  split_ifs at hmem with h1 h2 h3 <;>
    (try simp only [List.mem_append, List.mem_singleton] at hmem)
  · rcases hmem with (hm | rfl) | rfl
    · exact Or.inl (by rw [h1, h2]; exact hm)
    · exact Or.inr (Or.inl ⟨rfl, h1.trans h2⟩)
    · exact Or.inr (Or.inr ⟨rfl, h1⟩)
  · rcases hmem with hm | rfl
    · exact Or.inl (by rw [h1]; exact hm)
    · exact Or.inr (Or.inr ⟨rfl, h1⟩)
  · rcases hmem with hm | rfl
    · exact Or.inl (by rw [h3]; exact hm)
    · exact Or.inr (Or.inl ⟨rfl, h3⟩)
  · exact Or.inl hmem

theorem adjacencyStep_mem (len : List Pos → ℚ) (graph : Graph) (road : List Pos) (k : Fp)
    (ed : GEdge) (hwf : 2 ≤ road.length)
    (hmem : ed ∈ gGet (adjacencyStep len graph road) k) :
    ed ∈ gGet graph k ∨
      ((ed.path = road ∨ ed.path = road.reverse) ∧ ed.distance = len road ∧
        (∃ h, ed.path.head? = some h ∧ fpp h = k) ∧
        (∃ t, ed.path.getLast? = some t ∧ fpp t = ed.node)) := by
  obtain ⟨a, rest, rfl⟩ : ∃ a rest, road = a :: rest := by
    cases road with
    | nil => simp at hwf
    | cons a rest => exact ⟨a, rest, rfl⟩
  have hlast : (a :: rest).getLast? = some ((a :: rest).getLastD (0, 0)) :=
    getLast?_eq_getLastD _ _ (by simp)
  rcases mem_adjacencyStep hmem with hmem | ⟨rfl, rfl⟩ | ⟨rfl, rfl⟩
  · exact Or.inl hmem
  · refine Or.inr ⟨Or.inl rfl, rfl, ⟨a, rfl, rfl⟩, ?_⟩
    exact ⟨(a :: rest).getLastD (0, 0), hlast, rfl⟩
  · refine Or.inr ⟨Or.inr rfl, rfl, ?_, ?_⟩
    · exact ⟨(a :: rest).getLastD (0, 0), by rw [List.head?_reverse, hlast], rfl⟩
    · exact ⟨a, by rw [List.getLast?_reverse]; rfl, rfl⟩

theorem adjacencyFold_ok (len : List Pos → ℚ) (temp : List (List Pos)) :
    ∀ (l : List (List Pos)) (g : Graph),
      (∀ r ∈ l, r ∈ temp ∧ 2 ≤ r.length) →
      (∀ k ed, ed ∈ gGet g k → EdgeOk len temp k ed) →
      ∀ k ed, ed ∈ gGet (l.foldl (adjacencyStep len) g) k → EdgeOk len temp k ed
  | [], _, _, hg => hg
  | road :: rest, g, hl, hg => by
      refine adjacencyFold_ok len temp rest _ (fun r hr => hl r (List.mem_cons_of_mem _ hr)) ?_
      intro k ed hmem
      rcases adjacencyStep_mem len g road k ed (hl road (List.mem_cons_self _ _)).2 hmem with
        hmem | ⟨hpath, hdist, hh, ht⟩
      · exact hg k ed hmem
      · exact ⟨⟨road, (hl road (List.mem_cons_self _ _)).1, hpath, hdist⟩, hh, ht⟩

theorem calculateAdjacencyGraph_edges (len : List Pos → ℚ) (temp : List (List Pos))
    (hwf : ∀ r ∈ temp, 2 ≤ r.length) :
    ∀ k ed, ed ∈ gGet (calculateAdjacencyGraph len temp) k → EdgeOk len temp k ed := by
  refine adjacencyFold_ok len temp temp _ (fun r hr => ⟨hr, hwf r hr⟩) ?_
  intro k ed hmem
  simp [gGet] at hmem

theorem mem_pairsOf_cons {c : Pos} {cs : List Pos} {p : Pos × Pos} (hp : p ∈ pairsOf cs) :
    p ∈ pairsOf (c :: cs) := by
  cases cs with
  | nil => simp [pairsOf] at hp
  | cons d t => exact List.mem_cons_of_mem _ hp

theorem mem_pairsOf_append :
    ∀ (l1 l2 : List Pos) (p : Pos × Pos), p ∈ pairsOf (l1 ++ l2) →
      p ∈ pairsOf l1 ∨ p ∈ pairsOf l2 ∨ (l1.getLast? = some p.1 ∧ l2.head? = some p.2)
  | [], _, _, hp => Or.inr (Or.inl hp)
  | [a], l2, p, hp => by
      cases l2 with
      | nil => simp [pairsOf] at hp
      | cons b t =>
          rcases List.mem_cons.mp hp with rfl | hp
          · exact Or.inr (Or.inr ⟨rfl, rfl⟩)
          · exact Or.inr (Or.inl hp)
  | a :: c :: l1, l2, p, hp => by
      rcases List.mem_cons.mp hp with rfl | hp
      · exact Or.inl (List.mem_cons_self _ _)
      · rcases mem_pairsOf_append (c :: l1) l2 p hp with h | h | h
        · exact Or.inl (List.mem_cons_of_mem _ h)
        · exact Or.inr (Or.inl h)
        · exact Or.inr (Or.inr ⟨by rw [List.getLast?_cons_cons]; exact h.1, h.2⟩)

theorem mem_pairsOf_reverse :
    ∀ (l : List Pos) (p : Pos × Pos), p ∈ pairsOf l.reverse → (p.2, p.1) ∈ pairsOf l
  | [], p, hp => by simp [pairsOf] at hp
  | c :: cs, p, hp => by
      rw [List.reverse_cons] at hp
      rcases mem_pairsOf_append _ _ _ hp with h | h | ⟨h1, h2⟩
      · exact mem_pairsOf_cons (mem_pairsOf_reverse cs p h)
      · simp [pairsOf] at h
      · rw [List.getLast?_reverse] at h1
        cases cs with
        | nil => simp at h1
        | cons d t =>
            have hd : p.1 = d := by simpa using h1.symm
            have hc : p.2 = c := by simpa using h2.symm
            rw [hd, hc]
            exact List.mem_cons_self _ _

theorem fppInj_restrict {l1 l2 : List Pos} (hsub : ∀ x ∈ l1, x ∈ l2)
    (hinj : ∀ a ∈ l2, ∀ b ∈ l2, fpp a = fpp b → a = b) :
    ∀ a ∈ l1, ∀ b ∈ l1, fpp a = fpp b → a = b :=
  fun a ha b hb => hinj a (hsub a ha) b (hsub b hb)

theorem mem_cons_skip {c lastKept : Pos} {cs : List Pos} :
    ∀ x ∈ lastKept :: cs, x ∈ lastKept :: c :: cs := by
  intro x hx
  rcases List.mem_cons.mp hx with rfl | hx
  · exact List.mem_cons_self _ _
  · exact List.mem_cons_of_mem _ (List.mem_cons_of_mem _ hx)

theorem dedupFp_head? (l : List Pos) : (dedupFp l).head? = l.head? := by
  cases l <;> rfl

theorem dedupFpAux_getLast? :
    ∀ (cs : List Pos) (lastKept : Pos),
      (∀ a ∈ lastKept :: cs, ∀ b ∈ lastKept :: cs, fpp a = fpp b → a = b) →
      (lastKept :: dedupFpAux lastKept cs).getLast? = (lastKept :: cs).getLast?
  | [], _, _ => rfl
  | c :: cs, lastKept, hinj => by
      unfold dedupFpAux
      by_cases h : fpp c = fpp lastKept
      · have hc : c = lastKept :=
          hinj c (by simp) lastKept (by simp) h
        rw [if_pos h]
        rw [dedupFpAux_getLast? cs lastKept (fppInj_restrict mem_cons_skip hinj)]
        rw [List.getLast?_cons_cons]
        subst hc
        cases cs <;> simp [List.getLast?_cons_cons]
      · rw [if_neg h, List.getLast?_cons_cons, List.getLast?_cons_cons]
        exact dedupFpAux_getLast? cs c
          (fppInj_restrict (fun x hx => List.mem_cons_of_mem _ hx) hinj)

theorem dedupFp_getLast? (l : List Pos)
    (hinj : ∀ a ∈ l, ∀ b ∈ l, fpp a = fpp b → a = b) :
    (dedupFp l).getLast? = l.getLast? := by
  cases l with
  | nil => rfl
  | cons c cs => exact dedupFpAux_getLast? cs c hinj

theorem mem_pairsOf_dedupFpAux :
    ∀ (cs : List Pos) (lastKept : Pos),
      (∀ a ∈ lastKept :: cs, ∀ b ∈ lastKept :: cs, fpp a = fpp b → a = b) →
      ∀ p ∈ pairsOf (lastKept :: dedupFpAux lastKept cs), p ∈ pairsOf (lastKept :: cs)
  | [], _, _, p, hp => hp
  | c :: cs, lastKept, hinj, p, hp => by
      unfold dedupFpAux at hp
      by_cases h : fpp c = fpp lastKept
      · have hc : c = lastKept := hinj c (by simp) lastKept (by simp) h
        rw [if_pos h] at hp
        have := mem_pairsOf_dedupFpAux cs lastKept (fppInj_restrict mem_cons_skip hinj) p hp
        subst hc
        exact mem_pairsOf_cons this
      · rw [if_neg h] at hp
        rcases List.mem_cons.mp hp with rfl | hp
        · exact List.mem_cons_self _ _
        · exact mem_pairsOf_cons (mem_pairsOf_dedupFpAux cs c
            (fppInj_restrict (fun x hx => List.mem_cons_of_mem _ hx) hinj) p hp)

theorem mem_pairsOf_dedupFp (l : List Pos)
    (hinj : ∀ a ∈ l, ∀ b ∈ l, fpp a = fpp b → a = b) :
    ∀ p ∈ pairsOf (dedupFp l), p ∈ pairsOf l := by
  cases l with
  | nil => intro p hp; exact hp
  | cons c cs => exact mem_pairsOf_dedupFpAux cs c hinj

theorem pairsOf_dedupFpAux_ne :
    ∀ (cs : List Pos) (lastKept : Pos) (p : Pos × Pos),
      p ∈ pairsOf (lastKept :: dedupFpAux lastKept cs) → fpp p.1 ≠ fpp p.2
  | [], _, p, hp => by simp [pairsOf, dedupFpAux] at hp
  | c :: cs, lastKept, p, hp => by
      unfold dedupFpAux at hp
      by_cases h : fpp c = fpp lastKept
      · rw [if_pos h] at hp
        exact pairsOf_dedupFpAux_ne cs lastKept p hp
      · rw [if_neg h] at hp
        rcases List.mem_cons.mp hp with rfl | hp
        · exact fun hfp => h (hfp.symm)
        · exact pairsOf_dedupFpAux_ne cs c p hp

theorem pairsOf_dedupFp_ne (l : List Pos) (p : Pos × Pos)
    (hp : p ∈ pairsOf (dedupFp l)) : fpp p.1 ≠ fpp p.2 := by
  cases l with
  | nil => simp [dedupFp, pairsOf] at hp
  | cons c cs => exact pairsOf_dedupFpAux_ne cs c p hp

theorem chained_append_single :
    ∀ (mids : List (List Pos)) (fk k2 : Fp) (pl : List Pos) (h t : Pos),
      Chained fk mids k2 → pl.head? = some h → fpp h = k2 → pl.getLast? = some t →
      Chained fk (mids ++ [pl]) (fpp t)
  | [], fk, k2, pl, h, t, hch, hh, hfp, ht => by
      have : fk = k2 := hch
      exact ⟨⟨h, hh, by rw [hfp, this]⟩, ⟨t, ht, rfl⟩⟩
  | pl' :: rest, fk, k2, pl, h, t, hch, hh, hfp, ht => by
      obtain ⟨hhead, t', hlast, hch'⟩ := hch
      exact ⟨hhead, t', hlast, chained_append_single rest _ k2 pl h t hch' hh hfp ht⟩

theorem chained_flatten_head (mids : List (List Pos)) (fk lk : Fp)
    (hch : Chained fk mids lk) (hne : mids ≠ []) :
    ∃ h, mids.flatten.head? = some h ∧ fpp h = fk := by
  cases mids with
  | nil => exact absurd rfl hne
  | cons pl rest =>
      obtain ⟨⟨h, hh, hfp⟩, _⟩ := hch
      refine ⟨h, ?_, hfp⟩
      rw [List.flatten_cons]
      cases pl with
      | nil => simp at hh
      | cons a t => simpa using hh

theorem chained_flatten_last :
    ∀ (mids : List (List Pos)) (fk lk : Fp),
      Chained fk mids lk → mids ≠ [] → (∀ pl ∈ mids, pl ≠ []) →
      ∃ t, mids.flatten.getLast? = some t ∧ fpp t = lk
  | [], _, _, _, hne, _ => absurd rfl hne
  | [pl], fk, lk, hch, _, hwf => by
      obtain ⟨_, t, hlast, hch0⟩ := hch
      have : fpp t = lk := hch0
      exact ⟨t, by simpa using hlast, this⟩
  | pl :: pl' :: rest, fk, lk, hch, _, hwf => by
      obtain ⟨_, t', hlast', hch'⟩ := hch
      obtain ⟨t, hl, hfp⟩ := chained_flatten_last (pl' :: rest) (fpp t') lk hch' (by simp)
        (fun q hq => hwf q (List.mem_cons_of_mem _ hq))
      refine ⟨t, ?_, hfp⟩
      rw [List.flatten_cons, List.getLast?_append_of_ne_nil, hl]
      intro hcontra
      rw [hcontra] at hl
      simp at hl

theorem chained_flatten_pairs :
    ∀ (mids : List (List Pos)) (fk lk : Fp),
      Chained fk mids lk → (∀ pl ∈ mids, pl ≠ []) →
      ∀ p ∈ pairsOf mids.flatten, (∃ pl ∈ mids, p ∈ pairsOf pl) ∨ fpp p.1 = fpp p.2
  | [], _, _, _, _, p, hp => by simp [pairsOf] at hp
  | pl :: rest, fk, lk, hch, hwf, p, hp => by
      obtain ⟨_, t, hlast, hch'⟩ := hch
      rw [List.flatten_cons] at hp
      rcases mem_pairsOf_append _ _ _ hp with h | h | ⟨h1, h2⟩
      · exact Or.inl ⟨pl, List.mem_cons_self _ _, h⟩
      · rcases chained_flatten_pairs rest (fpp t) lk hch'
          (fun q hq => hwf q (List.mem_cons_of_mem _ hq)) p h with ⟨q, hq, hpq⟩ | h
        · exact Or.inl ⟨q, List.mem_cons_of_mem _ hq, hpq⟩
        · exact Or.inr h
      · have hp1 : p.1 = t := by rw [h1] at hlast; injection hlast
        cases rest with
        | nil => simp at h2
        | cons pl' rest' =>
            obtain ⟨h', hh', hfp'⟩ := chained_flatten_head (pl' :: rest') (fpp t) lk hch'
              (by simp)
            have hp2 : p.2 = h' := by rw [h2] at hh'; injection hh'
            exact Or.inr (by rw [hp1, hp2, hfp'])

theorem mem_insertByDist {x y : Fp × ℚ} : ∀ {l : List (Fp × ℚ)}, x ∈ insertByDist y l →
    x = y ∨ x ∈ l := by
  intro l
  induction l with
  | nil => intro h; simpa [insertByDist] using h
  | cons z zs ih =>
      intro h
      unfold insertByDist at h
      split_ifs at h
      · rcases List.mem_cons.mp h with rfl | h
        · exact Or.inl rfl
        · exact Or.inr h
      · rcases List.mem_cons.mp h with rfl | h
        · exact Or.inr (List.mem_cons_self _ _)
        · rcases ih h with rfl | h
          · exact Or.inl rfl
          · exact Or.inr (List.mem_cons_of_mem _ h)

theorem mem_sortByDist {x : Fp × ℚ} {l : List (Fp × ℚ)} (hx : x ∈ sortByDist l) : x ∈ l := by
  unfold sortByDist at hx
  suffices h : ∀ (l : List (Fp × ℚ)) (acc : List (Fp × ℚ)),
      x ∈ l.foldl (fun acc x => insertByDist x acc) acc → x ∈ acc ∨ x ∈ l by
    rcases h l [] hx with h | h
    · simp at h
    · exact h
  intro l
  induction l with
  | nil => intro acc h; exact Or.inl h
  | cons z zs ih =>
      intro acc h
      rcases ih _ h with h | h
      · rcases mem_insertByDist h with rfl | h
        · exact Or.inr (List.mem_cons_self _ _)
        · exact Or.inl h
      · exact Or.inr (List.mem_cons_of_mem _ h)

theorem relaxEdges_previous_mono (currentNode : Fp) (cd : Option ℚ) :
    ∀ (es : List GEdge) (st : DijkstraState) (k : Fp),
      st.previous k ≠ none → (relaxEdges currentNode cd es st).previous k ≠ none
  | [], _, _, h => h
  | ed :: rest, st, k, h => by
      unfold relaxEdges
      dsimp only
      split
      · refine relaxEdges_previous_mono currentNode cd rest _ k ?_
        dsimp only
        split_ifs with hk
        · simp
        · exact h
      · exact relaxEdges_previous_mono currentNode cd rest st k h

theorem relaxEdges_inv (graph : Graph) (startKey currentNode : Fp) (cd : Option ℚ) :
    ∀ (es : List GEdge) (st : DijkstraState),
      DInv graph startKey st →
      (currentNode = startKey ∨ st.previous currentNode ≠ none) →
      (∀ q, cd = some q → 0 ≤ q) →
      (∀ ed ∈ es, ed ∈ gGet graph currentNode ∧ 0 ≤ ed.distance) →
      DInv graph startKey (relaxEdges currentNode cd es st)
  | [], _, hst, _, _, _ => hst
  | ed :: rest, st, hst, hcur, hcd, hes => by
      obtain ⟨hd0, hdpos, hp0, hprev, hpq⟩ := hst
      unfold relaxEdges
      dsimp only
      split
      case isTrue hlt =>
        obtain ⟨cdq, hcdq⟩ : ∃ q, cd = some q := by
          cases hcdval : cd with
          | none => rw [hcdval] at hlt; simp [ltInfInf] at hlt
          | some q => exact ⟨q, rfl⟩
        have htq : cd.map (· + ed.distance) = some (cdq + ed.distance) := by
          rw [hcdq]; rfl
        have htqpos : 0 ≤ cdq + ed.distance :=
          add_nonneg (hcd cdq hcdq) (hes ed (List.mem_cons_self _ _)).2
        have hnode_ne : ed.node ≠ startKey := by
          intro hcontra
          rw [hcontra, hd0, htq] at hlt
          simp only [ltInfInf, ltInf, decide_eq_true_eq] at hlt
          exact absurd (lt_of_lt_of_le hlt htqpos) (lt_irrefl _)
        refine relaxEdges_inv graph startKey currentNode cd rest _
          ⟨?_, ?_, ?_, ?_, ?_⟩ ?_ hcd (fun e he => hes e (List.mem_cons_of_mem _ he))
        · dsimp only
          rw [if_neg (fun hcontra => hnode_ne hcontra.symm)]
          exact hd0
        · intro k q hk
          dsimp only at hk
          split_ifs at hk with hkeq
          · rw [htq] at hk
            injection hk with hk
            rw [← hk]
            exact htqpos
          · exact hdpos k q hk
        · dsimp only
          rw [if_neg (fun hcontra => hnode_ne hcontra.symm)]
          exact hp0
        · intro k k2 pl hk
          dsimp only at hk
          split_ifs at hk with hkeq
          · injection hk with hk
            obtain ⟨rfl, rfl⟩ : k2 = currentNode ∧ pl = ed.path := by
              constructor <;> [exact congrArg Prod.fst hk.symm; exact congrArg Prod.snd hk.symm]
            subst hkeq
            refine ⟨⟨ed, (hes ed (List.mem_cons_self _ _)).1, rfl, rfl⟩, ?_⟩
            rcases hcur with h | h
            · exact Or.inl h
            · right
              dsimp only
              split_ifs with h2
              · simp
              · exact h
          · obtain ⟨hedge, hk2⟩ := hprev k k2 pl hk
            refine ⟨hedge, ?_⟩
            rcases hk2 with h | h
            · exact Or.inl h
            · right
              dsimp only
              split_ifs with h2
              · simp
              · exact h
        · intro e he
          dsimp only at he
          rcases List.mem_append.mp he with he | he
          · rcases hpq e he with h | h
            · exact Or.inl h
            · right
              dsimp only
              split_ifs with h2
              · simp
              · exact h
          · right
            dsimp only
            rw [List.mem_singleton.mp he]
            simp
        · rcases hcur with h | h
          · exact Or.inl h
          · right
            dsimp only
            split_ifs with h2
            · simp
            · exact h
      case isFalse =>
        exact relaxEdges_inv graph startKey currentNode cd rest st
          ⟨hd0, hdpos, hp0, hprev, hpq⟩ hcur hcd
          (fun e he => hes e (List.mem_cons_of_mem _ he))

theorem reconstructPath_spec (graph : Graph) (startKey : Fp)
    (prev : Fp → Option (Fp × List Pos)) (hkeyed : GraphKeyed graph)
    (hprev : ∀ k k2 pl, prev k = some (k2, pl) →
      (∃ ed ∈ gGet graph k2, ed.node = k ∧ ed.path = pl) ∧
      (k2 = startKey ∨ prev k2 ≠ none)) :
    ∀ (fuel : ℕ) (node : Fp) (acc out : List Pos),
      (node = startKey ∨ prev node ≠ none) →
      reconstructPath prev fuel node acc = .ok out →
      ∃ mids, out = mids.flatten ++ acc ∧ Chained startKey mids node ∧
        ∀ pl ∈ mids, ∃ k2 ed, ed ∈ gGet graph k2 ∧ ed.path = pl
  | 0, node, acc, out, _, h => by simp [reconstructPath] at h
  | fuel + 1, node, acc, out, hnode, h => by
      unfold reconstructPath at h
      cases hpn : prev node with
      | none =>
          rw [hpn] at h
          injection h with h
          rcases hnode with rfl | hne
          · exact ⟨[], by simp [h], rfl, by simp⟩
          · exact absurd hpn hne
      | some pr =>
          obtain ⟨k2, pl⟩ := pr
          rw [hpn] at h
          obtain ⟨⟨ed, hed, hednode, hedpath⟩, hk2⟩ := hprev node k2 pl hpn
          obtain ⟨mids2, hout, hch, hmids⟩ :=
            reconstructPath_spec graph startKey prev hkeyed hprev fuel k2 (pl ++ acc) out hk2 h
          obtain ⟨⟨hh, hhead, hhfp⟩, ⟨t, hlastt, htfp⟩⟩ := hkeyed k2 ed hed
          rw [hedpath] at hhead hlastt
          refine ⟨mids2 ++ [pl], ?_, ?_, ?_⟩
          · rw [hout, List.flatten_append, List.flatten_cons, List.flatten_nil,
              List.append_nil, List.append_assoc]
          · have hchain := chained_append_single mids2 startKey k2 pl hh t hch hhead hhfp hlastt
            rwa [htfp.trans hednode] at hchain
          · intro q hq
            rcases List.mem_append.mp hq with hq | hq
            · exact hmids q hq
            · rw [List.mem_singleton.mp hq]
              exact ⟨k2, ed, hed, hedpath⟩

theorem dijkstraLoop_spec (graph : Graph) (startKey endKey : Fp)
    (hkeyed : GraphKeyed graph)
    (hpos : ∀ k ed, ed ∈ gGet graph k → 0 ≤ ed.distance) :
    ∀ (fuel : ℕ) (st : DijkstraState) (P : List Pos),
      DInv graph startKey st →
      dijkstraLoop graph endKey fuel st = .ok (some P) →
      2 ≤ P.length ∧ ∃ mids, P = mids.flatten ∧ Chained startKey mids endKey ∧
        ∀ pl ∈ mids, ∃ k2 ed, ed ∈ gGet graph k2 ∧ ed.path = pl
  | 0, _, _, _, h => by simp [dijkstraLoop] at h
  | fuel + 1, st, P, hinv, h => by
      unfold dijkstraLoop at h
      cases hsort : sortByDist st.pq with
      | nil => rw [hsort] at h; simp at h
      | cons top pqRest =>
          rw [hsort] at h
          obtain ⟨currentNode, cd⟩ := top
          dsimp only at h
          by_cases hend : currentNode = endKey
          · rw [if_pos hend] at h
            cases hrec : reconstructPath st.previous fuel currentNode [] with
            | error msg => rw [hrec] at h; simp at h
            | ok fullPath =>
                rw [hrec] at h
                dsimp only at h
                unfold lineStringF at h
                by_cases hlen : fullPath.length < 2
                · rw [if_pos hlen] at h
                  simp [Except.map] at h
                · rw [if_neg hlen] at h
                  simp only [Except.map] at h
                  injection h with h
                  injection h with h
                  obtain ⟨hinv1, hinv2, hinv3, hinv4, hinv5⟩ := hinv
                  have hcur : currentNode = startKey ∨ st.previous currentNode ≠ none :=
                    hinv5 (currentNode, cd)
                      (mem_sortByDist (by rw [hsort]; exact List.mem_cons_self _ _))
                  obtain ⟨mids, hout, hch, hmids⟩ :=
                    reconstructPath_spec graph startKey st.previous hkeyed hinv4 fuel
                      currentNode [] fullPath hcur hrec
                  subst hend
                  subst h
                  refine ⟨by omega, mids, by rw [hout, List.append_nil], hch, hmids⟩
          · rw [if_neg hend] at h
            obtain ⟨hinv1, hinv2, hinv3, hinv4, hinv5⟩ := hinv
            refine dijkstraLoop_spec graph startKey endKey hkeyed hpos fuel _ P ?_ h
            refine relaxEdges_inv graph startKey currentNode (st.distances currentNode)
              (gGet graph currentNode) ⟨st.distances, st.previous, pqRest⟩
              ⟨hinv1, hinv2, hinv3, hinv4, ?_⟩ ?_ ?_ ?_
            · intro e he
              exact hinv5 e (mem_sortByDist (by rw [hsort]; exact List.mem_cons_of_mem _ he))
            · exact hinv5 (currentNode, cd)
                (mem_sortByDist (by rw [hsort]; exact List.mem_cons_self _ _))
            · intro q hq
              exact hinv2 currentNode q hq
            · intro e he
              exact ⟨he, hpos _ e he⟩

theorem getDijkstraPath_spec (graph : Graph) (fuel : ℕ) (start finish : Pos) (P : List Pos)
    (hkeyed : GraphKeyed graph)
    (hpos : ∀ k ed, ed ∈ gGet graph k → 0 ≤ ed.distance)
    (h : getDijkstraPath graph fuel start finish = .ok (some P)) :
    2 ≤ P.length ∧ ∃ mids, P = mids.flatten ∧ Chained (fpp start) mids (fpp finish) ∧
      ∀ pl ∈ mids, ∃ k2 ed, ed ∈ gGet graph k2 ∧ ed.path = pl := by
  unfold getDijkstraPath at h
  dsimp only at h
  split_ifs at h with hkeys
  · simp at h
  · refine dijkstraLoop_spec graph (fpp start) (fpp finish) hkeyed hpos fuel _ P
      ⟨by simp, ?_, rfl, by simp, ?_⟩ h
    · intro k q hk
      dsimp only at hk
      split_ifs at hk
      injection hk with hk
      exact hk.le
    · intro e he
      dsimp only at he
      rw [List.mem_singleton.mp he]
      exact Or.inl rfl

theorem stitchFold_spec (rg : RouterGeo) (roadmap : List (List Pos)) (start finish : Pos) :
    StitchStartOk rg roadmap start (stitchFold rg roadmap start finish).1 ∧
    StitchEndOk rg roadmap finish (stitchFold rg roadmap start finish).2 := by
  unfold stitchFold
  suffices h : ∀ (l : List (ℕ × List Pos)) (st : Stitch × Stitch),
      (∀ x ∈ l, roadmap.get? x.1 = some x.2) →
      StitchStartOk rg roadmap start st.1 → StitchEndOk rg roadmap finish st.2 →
      StitchStartOk rg roadmap start (l.foldl _ st).1 ∧
        StitchEndOk rg roadmap finish (l.foldl _ st).2 by
    exact h roadmap.enum _ (fun x hx => List.mem_enum_iff_get?.mp hx)
      (Or.inl ⟨rfl, rfl⟩) (Or.inl ⟨rfl, rfl⟩)
  intro l
  induction l with
  | nil => intro st _ h1 h2; exact ⟨h1, h2⟩
  | cons x xs ih =>
      intro st hget h1 h2
      rw [List.foldl_cons]
      refine ih _ (fun y hy => hget y (List.mem_cons_of_mem _ hy)) ?_ ?_
      · dsimp only
        split_ifs with hcond
        · obtain ⟨_, hclear⟩ := Bool.and_eq_true_iff.mp hcond
          exact Or.inr ⟨x.1, x.2, rfl, hget x (List.mem_cons_self _ _), rfl, hclear⟩
        · exact h1
      · dsimp only
        split_ifs with hcond
        · obtain ⟨_, hclear⟩ := Bool.and_eq_true_iff.mp hcond
          exact Or.inr ⟨x.1, x.2, rfl, hget x (List.mem_cons_self _ _), rfl, hclear⟩
        · exact h2

/-- Membership classification of the temporary roadmap: original roads, split
pieces of original roads, and the two checked stitch segments; the start and
end point each occur on some member. -/
theorem clearPathTemp_members (rg : RouterGeo) (roadmap : List (List Pos))
    (start finish : Pos) (temp : List (List Pos))
    (h : clearPathTemp rg roadmap start finish = some temp) :
    (∀ r ∈ temp,
      r ∈ roadmap ∨ (∃ road ∈ roadmap, ∃ spl, r ∈ rg.lineSplit road spl) ∨
      (∃ road ∈ roadmap, r = [start, rg.nearest road start] ∧
        rg.clear start (rg.nearest road start) = true) ∨
      (∃ road ∈ roadmap, r = [rg.nearest road finish, finish] ∧
        rg.clear (rg.nearest road finish) finish = true)) ∧
    (∃ r ∈ temp, start ∈ r) ∧ (∃ r ∈ temp, finish ∈ r) := by
  obtain ⟨hs, he⟩ := stitchFold_spec rg roadmap start finish
  unfold clearPathTemp at h
  dsimp only at h
  cases hp1 : (stitchFold rg roadmap start finish).1.path with
  | none => rw [hp1] at h; simp at h
  | some startPath =>
  cases hi1 : (stitchFold rg roadmap start finish).1.roadIdx with
  | none => rw [hp1, hi1] at h; simp at h
  | some si =>
  cases hp2 : (stitchFold rg roadmap start finish).2.path with
  | none => rw [hp1, hi1, hp2] at h; simp at h
  | some endPath =>
  cases hi2 : (stitchFold rg roadmap start finish).2.roadIdx with
  | none => rw [hp1, hi1, hp2, hi2] at h; simp at h
  | some ei =>
  rw [hp1, hi1, hp2, hi2] at h
  dsimp only at h
  rcases hs with ⟨hsn, _⟩ | ⟨i, sRoad, hsi, hsget, hspath, hsclear⟩
  · rw [hp1] at hsn; exact absurd hsn (by simp)
  rcases he with ⟨hen, _⟩ | ⟨j, eRoad, hej, heget, hepath, heclear⟩
  · rw [hp2] at hen; exact absurd hen (by simp)
  rw [hi1] at hsi
  rw [hp1] at hspath
  rw [hi2] at hej
  rw [hp2] at hepath
  injection hsi with hsi
  injection hej with hej
  injection hspath with hspath
  injection hepath with hepath
  subst hsi hej
  injection h with h
  subst h
  refine ⟨?_, ?_, ?_⟩
  · intro r hr
    rcases List.mem_append.mp hr with hr | hr
    · rcases List.mem_append.mp hr with hr | hr
      · rcases List.mem_append.mp hr with hr | hr
        · left
          obtain ⟨x, hx, hx2⟩ := List.mem_map.mp hr
          exact hx2 ▸ List.get?_mem (List.mem_enum_iff_get?.mp (List.mem_filter.mp hx).1)
        · right; left
          have hgd : roadmap.getD si [] = sRoad := by
            rw [List.getD_eq_getD_get?, hsget]
            rfl
          exact ⟨sRoad, List.get?_mem hsget, _, hgd ▸ hr⟩
      · right; left
        have hgd : roadmap.getD ei [] = eRoad := by
          rw [List.getD_eq_getD_get?, heget]
          rfl
        exact ⟨eRoad, List.get?_mem heget, _, hgd ▸ hr⟩
    · rcases List.mem_cons.mp hr with rfl | hr
      · right; right; left
        exact ⟨sRoad, List.get?_mem hsget, hspath, hsclear⟩
      · rw [List.mem_singleton.mp hr]
        right; right; right
        exact ⟨eRoad, List.get?_mem heget, hepath, heclear⟩
  · refine ⟨startPath, ?_, ?_⟩
    · simp
    · rw [hspath]; simp
  · refine ⟨endPath, ?_, ?_⟩
    · simp
    · rw [hepath]; simp

theorem PairsFree_reverse {free : Pos → Pos → Prop} {l : List Pos}
    (hsym : ∀ a b, free a b → free b a) (h : PairsFree free l) :
    PairsFree free l.reverse :=
  fun p hp => hsym _ _ (h (p.2, p.1) (mem_pairsOf_reverse l p hp))

/-- C1 as amended: whenever calculateClearPath returns a non-null path, and
(i) a clear check implies semantic freeness of the segment, (ii) freeness is
symmetric, (iii) every roadmap polyline's segments are free (the Roadmap
invariant of the spec), (iv) roadmap polylines have at least two coordinates,
(v) line splitting preserves segment freeness and well-formedness, (vi)
lengths are nonnegative, and (vii) no two distinct points of the temporary
roadmap share a toFixed(6) fingerprint, then the returned path starts exactly
at the start point, ends exactly at the end point, and every one of its
segments is free of the forbidden region. -/
theorem calculateClearPath_sound (rg : RouterGeo) (fuel : ℕ)
    (roadmap : List (List Pos)) (s e : Pos) (free : Pos → Pos → Prop)
    (hclear : ∀ a b, rg.clear a b = true → free a b)
    (hsym : ∀ a b, free a b → free b a)
    (hroadfree : ∀ r ∈ roadmap, PairsFree free r)
    (hroadwf : ∀ r ∈ roadmap, 2 ≤ r.length)
    (hsplitfree : ∀ l spl, PairsFree free l → ∀ p ∈ rg.lineSplit l spl, PairsFree free p)
    (hsplitwf : ∀ l spl p, p ∈ rg.lineSplit l spl → 2 ≤ p.length)
    (hlen : ∀ l, 0 ≤ rg.len l)
    (hinj : ∀ temp, clearPathTemp rg roadmap s e = some temp →
      ∀ a b, VertIn temp a → VertIn temp b → fpp a = fpp b → a = b)
    (P : List Pos)
    (hP : calculateClearPath rg fuel roadmap s e = .ok (some P)) :
    P.head? = some s ∧ P.getLast? = some e ∧ PairsFree free P := by
  unfold calculateClearPath at hP
  split_ifs at hP with hdirect
  · injection hP with hP
    injection hP with hP
    subst hP
    refine ⟨rfl, rfl, ?_⟩
    intro p hp
    have : p = (s, e) := by simpa [pairsOf] using hp
    rw [this]
    exact hclear s e hdirect
  · cases htemp : clearPathTemp rg roadmap s e with
    | none => rw [htemp] at hP; simp at hP
    | some temp =>
        rw [htemp] at hP
        dsimp only at hP
        obtain ⟨hmem, ⟨rs, hrs, hsrs⟩, ⟨re, hre, here⟩⟩ :=
          clearPathTemp_members rg roadmap s e temp htemp
        have hwfall : ∀ r ∈ temp, 2 ≤ r.length := by
          intro r hr
          rcases hmem r hr with hr2 | ⟨road, _, spl, hsp⟩ | ⟨road, _, hreq, _⟩ |
            ⟨road, _, hreq, _⟩
          · exact hroadwf r hr2
          · exact hsplitwf road spl r hsp
          · rw [hreq]; simp
          · rw [hreq]; simp
        have hfreeall : ∀ r ∈ temp, PairsFree free r := by
          intro r hr
          rcases hmem r hr with hr2 | ⟨road, hroad, spl, hsp⟩ | ⟨road, _, hreq, hcl⟩ |
            ⟨road, _, hreq, hcl⟩
          · exact hroadfree r hr2
          · exact hsplitfree road spl (hroadfree road hroad) r hsp
          · intro p hp
            rw [hreq] at hp
            have : p = (s, rg.nearest road s) := by simpa [pairsOf] using hp
            rw [this]
            exact hclear _ _ hcl
          · intro p hp
            rw [hreq] at hp
            have : p = (rg.nearest road e, e) := by simpa [pairsOf] using hp
            rw [this]
            exact hclear _ _ hcl
        have hedges := calculateAdjacencyGraph_edges rg.len temp hwfall
        have hkeyed : GraphKeyed (calculateAdjacencyGraph rg.len temp) :=
          fun k ed hed => ⟨(hedges k ed hed).2.1, (hedges k ed hed).2.2⟩
        have hposg : ∀ k ed, ed ∈ gGet (calculateAdjacencyGraph rg.len temp) k →
            0 ≤ ed.distance := by
          intro k ed hed
          obtain ⟨⟨road, _, _, hdist⟩, _, _⟩ := hedges k ed hed
          rw [hdist]
          exact hlen road
        cases hdij : getDijkstraPath (calculateAdjacencyGraph rg.len temp) fuel s e with
        | error msg => rw [hdij] at hP; simp at hP
        | ok res =>
            cases res with
            | none => rw [hdij] at hP; simp at hP
            | some dpath =>
                rw [hdij] at hP
                dsimp only at hP
                unfold lineStringF at hP
                split_ifs at hP with hlen2
                · simp [Except.map] at hP
                · simp only [Except.map] at hP
                  injection hP with hP
                  injection hP with hP
                  obtain ⟨hdlen, mids, hflat, hch, hmids⟩ :=
                    getDijkstraPath_spec (calculateAdjacencyGraph rg.len temp) fuel s e
                      dpath hkeyed hposg hdij
                  have hmidsne : mids ≠ [] := by
                    intro hcontra
                    rw [hcontra] at hflat
                    simp at hflat
                    rw [hflat] at hdlen
                    simp at hdlen
                  have hplprops : ∀ pl ∈ mids,
                      PairsFree free pl ∧ pl ≠ [] ∧ ∀ a ∈ pl, VertIn temp a := by
                    intro pl hpl
                    obtain ⟨k2, ed, hed, hedp⟩ := hmids pl hpl
                    obtain ⟨⟨road, hroadt, hpe, _⟩, _, _⟩ := hedges k2 ed hed
                    have hrl := hwfall road hroadt
                    have hrf := hfreeall road hroadt
                    rcases hpe with hpe | hpe
                    · have hplroad : pl = road := hedp.symm.trans hpe
                      rw [hplroad]
                      exact ⟨hrf, by intro hcontra; rw [hcontra] at hrl; simp at hrl,
                        fun a ha => ⟨road, hroadt, ha⟩⟩
                    · have hplrev : pl = road.reverse := hedp.symm.trans hpe
                      rw [hplrev]
                      refine ⟨PairsFree_reverse hsym hrf, ?_, ?_⟩
                      · intro hcontra
                        rw [List.reverse_eq_nil_iff] at hcontra
                        rw [hcontra] at hrl
                        simp at hrl
                      · intro a ha
                        exact ⟨road, hroadt, List.mem_reverse.mp ha⟩
                  have hverts : ∀ a ∈ dpath, VertIn temp a := by
                    rw [hflat]
                    intro a ha
                    obtain ⟨pl, hpl, hapl⟩ := List.mem_join.mp ha
                    exact (hplprops pl hpl).2.2 a hapl
                  have hinjd : ∀ a ∈ dpath, ∀ b ∈ dpath, fpp a = fpp b → a = b :=
                    fun a ha b hb =>
                      hinj temp htemp a b (hverts a ha) (hverts b hb)
                  obtain ⟨h0, hh0, hh0fp⟩ :=
                    chained_flatten_head mids (fpp s) (fpp e) hch hmidsne
                  obtain ⟨t0, ht0, ht0fp⟩ :=
                    chained_flatten_last mids (fpp s) (fpp e) hch hmidsne
                      (fun pl hpl => (hplprops pl hpl).2.1)
                  have hh0mem : h0 ∈ dpath := by
                    rw [hflat]
                    exact List.mem_of_mem_head? hh0
                  have ht0mem : t0 ∈ dpath := by
                    rw [hflat]
                    exact List.mem_of_mem_getLast? ht0
                  have hh0s : h0 = s :=
                    hinj temp htemp h0 s (hverts h0 hh0mem) ⟨rs, hrs, hsrs⟩ hh0fp
                  have ht0e : t0 = e :=
                    hinj temp htemp t0 e (hverts t0 ht0mem) ⟨re, hre, here⟩ ht0fp
                  subst hP
                  refine ⟨?_, ?_, ?_⟩
                  · rw [dedupFp_head?, hflat, hh0, hh0s]
                  · rw [dedupFp_getLast? dpath hinjd, hflat, ht0, ht0e]
                  · intro p hp
                    have hp2 := mem_pairsOf_dedupFp dpath hinjd p hp
                    have hpne := pairsOf_dedupFp_ne dpath p hp
                    rw [hflat] at hp2
                    rcases chained_flatten_pairs mids (fpp s) (fpp e) hch
                        (fun pl hpl => (hplprops pl hpl).2.1) p hp2 with
                      ⟨pl, hpl, hppl⟩ | heq
                    · exact (hplprops pl hpl).1 p hppl
                    · exact absurd heq hpne

/-- Witness for the amended C1 at a concrete input: the direct segment from
(0,0) to (1,1), with every hypothesis discharged concretely. -/
theorem calculateClearPath_sound_witness :
    ([((0 : ℚ), (0 : ℚ)), (1, 1)] : List Pos).head? = some ((0 : ℚ), (0 : ℚ)) ∧
      ([((0 : ℚ), (0 : ℚ)), (1, 1)] : List Pos).getLast? = some ((1 : ℚ), (1 : ℚ)) ∧
      PairsFree (fun _ _ => True) [((0 : ℚ), (0 : ℚ)), (1, 1)] :=
  calculateClearPath_sound rgW 5 [] (0, 0) (1, 1) (fun _ _ => True)
    (fun _ _ _ => trivial) (fun _ _ _ => trivial) (fun r hr => by simp at hr)
    (fun r hr => by simp at hr) (fun _ _ _ p hp => by simp [rgW] at hp)
    (fun _ _ p hp => by simp [rgW] at hp) (fun _ => le_refl 0)
    (fun temp htemp => by simp [clearPathTemp, stitchFold, rgW] at htemp)
    [((0 : ℚ), (0 : ℚ)), (1, 1)] rfl

end YardPilot
